import Mathlib

/-!
Verification of the TAP (topology-aware package) communication builder of the
raptor repository, file src/raptor/core/tap_comm.cpp, against its
natural-language specification.

The MPI-free algorithmic content of each routine is embedded shallowly:
arrays become lists or functions over Nat, C++ int arithmetic on the
non-negative values in play becomes Nat arithmetic (Int where the source
can return the -1 sentinel), and the tuned constants of the load balancer
(eager_cutoff, short_cutoff, ideal_n_comm, PPN), which live in a header not
part of the sources, are carried as explicit parameters as the spec
directs.
-/

namespace Raptor

/-! ## Topology Mapper: TAPComm::get_node / get_local_proc / get_global_proc

The three functions read the member fields rank_ordering, num_nodes and PPN,
and each one also queries the MPI rank of the calling process
(MPI_Comm_rank).  We bundle those four values into a configuration record;
`rank` is the rank of the process evaluating the function. -/

structure TMCfg where
  rank_ordering : Int
  num_nodes : Nat
  PPN : Nat
  rank : Nat

/-- Embedding of TAPComm::get_node (tap_comm.cpp lines 913-945).
On the unsupported ordering the source prints (on rank 0 only) and returns
the sentinel -1, hence the Int return type. -/
def get_node (c : TMCfg) (proc : Nat) : Int :=
  if c.rank_ordering = 0 then
    ((proc % c.num_nodes : Nat) : Int)
  else if c.rank_ordering = 1 then
    ((proc / c.PPN : Nat) : Int)
  else if c.rank_ordering = 2 then
    if (proc / c.num_nodes) % 2 = 0 then
      ((proc % c.num_nodes : Nat) : Int)
    else
      (c.num_nodes : Int) - ((proc % c.num_nodes : Nat) : Int) - 1
  else
    -1

/-- Embedding of TAPComm::get_local_proc (tap_comm.cpp lines 961-982). -/
def get_local_proc (c : TMCfg) (proc : Nat) : Int :=
  if c.rank_ordering = 0 ∨ c.rank_ordering = 2 then
    ((proc / c.num_nodes : Nat) : Int)
  else if c.rank_ordering = 1 then
    ((proc % c.PPN : Nat) : Int)
  else
    -1

/-- Embedding of TAPComm::get_global_proc (tap_comm.cpp lines 1000-1032).
Note: in the rank_ordering == 2 branch the source branches on
`(rank / num_nodes) % 2` where `rank` is the rank of the process evaluating
the function (from MPI_Comm_rank), not a property of the arguments. -/
def get_global_proc (c : TMCfg) (node : Int) (local_proc : Int) : Int :=
  if c.rank_ordering = 0 then
    local_proc * (c.num_nodes : Int) + node
  else if c.rank_ordering = 1 then
    local_proc + node * (c.PPN : Int)
  else if c.rank_ordering = 2 then
    if (c.rank / c.num_nodes) % 2 = 0 then
      local_proc * (c.num_nodes : Int) + node
    else
      local_proc * (c.num_nodes : Int) + (c.num_nodes : Int) - node - 1
  else
    -1

/-- Round trip of the mapper for rank_ordering = 0: independent of the
evaluating rank. -/
lemma roundtrip_ordering0 (nn P rk r : Nat) :
    get_global_proc ⟨0, nn, P, rk⟩ (get_node ⟨0, nn, P, rk⟩ r)
      (get_local_proc ⟨0, nn, P, rk⟩ r) = (r : Int) := by
  simp only [get_node, get_local_proc, get_global_proc, if_pos rfl]
  norm_num
  rw [mul_comm]
  exact_mod_cast Nat.div_add_mod r nn

/-- Round trip of the mapper for rank_ordering = 1: independent of the
evaluating rank. -/
lemma roundtrip_ordering1 (nn P rk r : Nat) :
    get_global_proc ⟨1, nn, P, rk⟩ (get_node ⟨1, nn, P, rk⟩ r)
      (get_local_proc ⟨1, nn, P, rk⟩ r) = (r : Int) := by
  simp only [get_node, get_local_proc, get_global_proc]
  norm_num
  rw [add_comm, mul_comm]
  exact_mod_cast Nat.div_add_mod r P

/-- C1: the claimed topology round-trip
get_global_proc(get_node r, get_local_proc r) == r fails for the supported
policy rank_ordering = 2, and the value returned depends on the rank of the
evaluating process.  With num_nodes = 2, PPN = 2 and valid global rank
r = 1, a process of rank 2 computes 0 (not 1), while a process of rank 0
computes 1: get_global_proc reads the parity (rank / num_nodes) % 2 of the
evaluating process where the round trip needs the parity of the local_proc
argument. -/
theorem C1_rank2_roundtrip_eval :
    (get_global_proc ⟨2, 2, 2, 2⟩ (get_node ⟨2, 2, 2, 2⟩ 1)
        (get_local_proc ⟨2, 2, 2, 2⟩ 1) = 0) ∧
    (get_global_proc ⟨2, 2, 2, 0⟩ (get_node ⟨2, 2, 2, 0⟩ 1)
        (get_local_proc ⟨2, 2, 2, 0⟩ 1) = 1) ∧ (0 : Int) ≠ 1 := by
  refine ⟨by decide, by decide, by decide⟩

/-- C4: for the unsupported rank_ordering value 3 none of the three mapper
functions fails: each prints (on rank 0 only) and returns the sentinel -1,
which the caller receives as an ordinary host / local / global id. -/
theorem C4_sentinel_eval :
    get_node ⟨3, 2, 2, 0⟩ 5 = -1 ∧
    get_local_proc ⟨3, 2, 2, 0⟩ 5 = -1 ∧
    get_global_proc ⟨3, 2, 2, 0⟩ 1 1 = -1 := by
  refine ⟨by decide, by decide, by decide⟩

/-! ## Host Discovery & Load Balancer: TAPComm::gather_off_node_nodes

The tuned constants eager_cutoff, short_cutoff, ideal_n_comm and PPN are
member fields declared in a header outside these sources; following the
spec they are carried as explicit configuration parameters. -/

structure LBParams where
  eager_cutoff : Nat
  short_cutoff : Nat
  PPN : Nat
  ideal_n_comm : Nat

/-- Contract of the std::sort call at tap_comm.cpp lines 146-152: `p` is a
permutation of the index range of `sizes` (nodal_off_node_sizes) along
which the sizes are non-increasing (comparator sizes[lhs] > sizes[rhs]).
std::sort guarantees exactly this and nothing more: among equal sizes the
order of indices is unspecified. -/
def sortedPermSpec (sizes : List Nat) (p : List Nat) : Prop :=
  p.Perm (List.range sizes.length) ∧
  List.Sorted (fun a b => sizes.getD b 0 ≤ sizes.getD a 0) p

/-- One iteration body of the fan-out loop (lines 160-182), for a host of
aggregate volume `size` when the loop has not yet stopped: the branch
taken and the value written into nodal_num_local.  The third branch is the
one in which the source breaks out of the loop; the entry then keeps its
initial value 1. -/
def hostFanout (P : LBParams) (ctr size : Nat) : Nat :=
  if P.eager_cutoff < size then
    (if P.PPN ≤ size / P.eager_cutoff then P.ideal_n_comm
     else size / P.eager_cutoff)
  else if P.short_cutoff < size ∧ ctr < P.PPN then
    (if P.PPN ≤ size / P.short_cutoff then P.PPN
     else size / P.short_cutoff)
  else
    1

/-- The loop at lines 160-182 keeps iterating at a host of volume `size`
exactly when one of the first two branches applies; otherwise it breaks. -/
def keepsGoing (P : LBParams) (ctr size : Nat) : Prop :=
  P.eager_cutoff < size ∨ (P.short_cutoff < size ∧ ctr < P.PPN)

instance (P : LBParams) (ctr size : Nat) : Decidable (keepsGoing P ctr size) := by
  unfold keepsGoing
  infer_instance

/-- Embedding of the fan-out loop (tap_comm.cpp lines 158-183) along the
sorted visiting order: the input list holds nodal_off_node_sizes[p[i]] for
i = 0, 1, ..., ctr-1, and the output holds the fan-out value that ends up
attached to the host visited at each position.  `ctr` is the number of
discovered hosts (the bound tested against PPN in the middle branch).  On
`break` the current and all remaining entries keep the initial value 1
from nodal_num_local.resize(ctr, 1). -/
def fanoutSeq (P : LBParams) (ctr : Nat) : List Nat → List Nat
  | [] => []
  | size :: rest =>
    if P.eager_cutoff < size then
      (if P.PPN ≤ size / P.eager_cutoff then P.ideal_n_comm
       else size / P.eager_cutoff) :: fanoutSeq P ctr rest
    else if P.short_cutoff < size ∧ ctr < P.PPN then
      (if P.PPN ≤ size / P.short_cutoff then P.PPN
       else size / P.short_cutoff) :: fanoutSeq P ctr rest
    else
      List.replicate (rest.length + 1) 1

lemma hostFanout_of_break (P : LBParams) (ctr s : Nat)
    (h : ¬ keepsGoing P ctr s) : hostFanout P ctr s = 1 := by
  simp only [hostFanout]
  rw [if_neg (fun h1 => h (Or.inl h1)), if_neg (fun h2 => h (Or.inr h2))]

lemma fanoutSeq_keep (P : LBParams) (ctr s : Nat) (rest : List Nat)
    (h : keepsGoing P ctr s) :
    fanoutSeq P ctr (s :: rest) = hostFanout P ctr s :: fanoutSeq P ctr rest := by
  simp only [fanoutSeq, hostFanout]
  by_cases he : P.eager_cutoff < s
  · rw [if_pos he, if_pos he]
  · have h2 : P.short_cutoff < s ∧ ctr < P.PPN := by
      rcases h with h1 | h2
      · exact absurd h1 he
      · exact h2
    rw [if_neg he, if_pos h2, if_neg he, if_pos h2]

lemma fanoutSeq_break (P : LBParams) (ctr s : Nat) (rest : List Nat)
    (h : ¬ keepsGoing P ctr s) :
    fanoutSeq P ctr (s :: rest) = List.replicate (rest.length + 1) 1 := by
  simp only [fanoutSeq]
  rw [if_neg (fun h1 => h (Or.inl h1)), if_neg (fun h2 => h (Or.inr h2))]

lemma fanoutSeq_length (P : LBParams) (ctr : Nat) :
    ∀ ss : List Nat, (fanoutSeq P ctr ss).length = ss.length := by
  intro ss
  induction ss with
  | nil => rfl
  | cons s rest ih =>
    by_cases hkeep : keepsGoing P ctr s
    · rw [fanoutSeq_keep P ctr s rest hkeep]
      simp [ih]
    · rw [fanoutSeq_break P ctr s rest hkeep]
      simp

/-- Characterization of the fan-out loop: position i receives the branch
value for its own size if every earlier position kept the loop going, and
the untouched initial value 1 otherwise. -/
lemma fanoutSeq_getD (P : LBParams) (ctr : Nat) :
    ∀ (ss : List Nat) (i : Nat), i < ss.length →
    (fanoutSeq P ctr ss).getD i 0 =
      if ∀ j, j < i → keepsGoing P ctr (ss.getD j 0) then
        hostFanout P ctr (ss.getD i 0)
      else 1 := by
  intro ss
  induction ss with
  | nil => intro i hi; simp at hi
  | cons s rest ih =>
    intro i hi
    match i with
    | 0 =>
      rw [if_pos (fun j hj => absurd hj (Nat.not_lt_zero j))]
      by_cases hkeep : keepsGoing P ctr s
      · rw [fanoutSeq_keep P ctr s rest hkeep]
        rfl
      · rw [fanoutSeq_break P ctr s rest hkeep, List.replicate_succ]
        rw [List.getD_cons_zero, List.getD_cons_zero,
          hostFanout_of_break P ctr s hkeep]
    | Nat.succ k =>
      have hk : k < rest.length := by simpa using hi
      by_cases hkeep : keepsGoing P ctr s
      · have hcond : (∀ j, j < k + 1 →
            keepsGoing P ctr ((s :: rest).getD j 0)) ↔
            (∀ j, j < k → keepsGoing P ctr (rest.getD j 0)) := by
          constructor
          · intro h j hj
            have := h (j + 1) (by omega)
            simpa using this
          · intro h j hj
            match j with
            | 0 => simpa using hkeep
            | Nat.succ m =>
              have := h m (by omega)
              simpa using this
        rw [fanoutSeq_keep P ctr s rest hkeep, List.getD_cons_succ, ih k hk]
        simp only [List.getD_cons_succ]
        by_cases hrest : ∀ j, j < k → keepsGoing P ctr (rest.getD j 0)
        · rw [if_pos hrest, if_pos (hcond.mpr hrest)]
        · rw [if_neg hrest, if_neg (fun h => hrest (hcond.mp h))]
      · rw [fanoutSeq_break P ctr s rest hkeep]
        have h01 : ¬ (∀ j, j < k + 1 → keepsGoing P ctr ((s :: rest).getD j 0)) := by
          intro h
          exact hkeep (by simpa using h 0 (by omega))
        rw [if_neg h01]
        rw [List.getD_eq_getElem _ _ (by simp; omega)]
        simp

/-- The per-host fan-out rule exactly as the claim words it: in the eager
branch the quotient is capped at the configured ideal fan-out and never
exceeds PPN. -/
def claimHostFanout (P : LBParams) (ctr size : Nat) : Nat :=
  if P.eager_cutoff < size then
    min (min (size / P.eager_cutoff) P.ideal_n_comm) P.PPN
  else if P.short_cutoff < size ∧ ctr < P.PPN then
    min (size / P.short_cutoff) P.PPN
  else
    1

/-- A concrete parameter choice used by counterexamples and witnesses:
eager_cutoff = 100, short_cutoff = 10, PPN = 16, ideal_n_comm = 4. -/
def lbDemo : LBParams := ⟨100, 10, 16, 4⟩

/-- C3 counterexample: with eager_cutoff = 100, short_cutoff = 10,
PPN = 16, ideal_n_comm = 4, a single host of volume 1000 gets fan-out
1000 / 100 = 10 from the source loop (the quotient is below PPN, so the
ideal cap is never applied), while the claim's rule (quotient capped at
the ideal fan-out) yields 4. -/
theorem C3_claim_counterexample :
    fanoutSeq lbDemo 1 [1000] = [10] ∧
    claimHostFanout lbDemo 1 1000 = 4 ∧ (10 : Nat) ≠ 4 := by
  refine ⟨by decide, by decide, by decide⟩

/-- C3 (amended): for each host taken in descending-volume order, as long
as every earlier host kept the loop going, the fan-out is: if its volume v
exceeds the eager threshold, v / eager_cutoff when that quotient is below
PPN and ideal_n_comm otherwise; else if v exceeds the short threshold and
the number of discovered hosts is below PPN, v / short_cutoff capped at
PPN; otherwise 1, and the loop stops so every later host keeps fan-out 1
(captured by the else branch of the condition on earlier hosts). -/
theorem C3_fanout_rule (P : LBParams) (ctr : Nat) (ss : List Nat) (i : Nat)
    (hi : i < ss.length) :
    (fanoutSeq P ctr ss).getD i 0 =
      if ∀ j, j < i → keepsGoing P ctr (ss.getD j 0) then
        hostFanout P ctr (ss.getD i 0)
      else 1 :=
  fanoutSeq_getD P ctr ss i hi

theorem C3_fanout_rule_witness :
    1 < ([1000, 95, 5] : List Nat).length ∧
    (fanoutSeq lbDemo 3 [1000, 95, 5]).getD 1 0 = 9 := by
  refine ⟨by decide, ?_⟩
  rw [C3_fanout_rule lbDemo 3 [1000, 95, 5] 1 (by decide)]
  decide

/-! ## Column Classifier: TAPComm::split_off_proc_cols -/

/-- The eight reference-output vectors of split_off_proc_cols, bundled.
Columns and positions are Nat; owner hosts and intra-host ranks keep the
Int type of the Topology Mapper results they store. -/
structure SplitRes where
  on_node_column_map : List Nat
  on_node_col_to_proc : List Int
  on_node_to_off_proc : List Nat
  off_node_column_map : List Nat
  off_node_col_to_node : List Int
  off_node_to_off_proc : List Nat

/-- Embedding of the scan loop of TAPComm::split_off_proc_cols
(tap_comm.cpp lines 59-76).  `i` is the position of the heads inside the
original off_proc lists and `rank_node` is get_node(rank) of the calling
process (line 51); each iteration classifies one column by comparing its
owner's host to rank_node. -/
def splitScan (c : TMCfg) (rank_node : Int) :
    Nat → List Nat → List Nat → SplitRes
  | _, [], _ => ⟨[], [], [], [], [], []⟩
  | _, _ :: _, [] => ⟨[], [], [], [], [], []⟩
  | i, global_col :: cols, proc :: procs =>
    let r := splitScan c rank_node (i + 1) cols procs
    let node := get_node c proc
    if node = rank_node then
      { r with
        on_node_column_map := global_col :: r.on_node_column_map
        on_node_col_to_proc := get_local_proc c proc :: r.on_node_col_to_proc
        on_node_to_off_proc := i :: r.on_node_to_off_proc }
    else
      { r with
        off_node_column_map := global_col :: r.off_node_column_map
        off_node_col_to_node := node :: r.off_node_col_to_node
        off_node_to_off_proc := i :: r.off_node_to_off_proc }

/-- TAPComm::split_off_proc_cols (tap_comm.cpp lines 34-77): scan from
position 0 with the caller's host id. -/
def split_off_proc_cols (c : TMCfg)
    (off_proc_column_map off_proc_col_to_proc : List Nat) : SplitRes :=
  splitScan c (get_node c c.rank) 0 off_proc_column_map off_proc_col_to_proc

lemma filter_map_range_cons {α : Type} (p : Nat → Bool) (v : Nat → α) (n : Nat) :
    ((List.range (n + 1)).filter p).map v =
      (if p 0 then [v 0] else []) ++
        (((List.range n).filter (p ∘ Nat.succ)).map (v ∘ Nat.succ)) := by
  rw [List.range_succ_eq_map, List.filter_cons, List.filter_map]
  by_cases h : p 0 = true
  · simp [h, List.map_map]
  · simp [h, List.map_map]

lemma splitScan_spec (c : TMCfg) (rn : Int) :
    ∀ (cols procs : List Nat), cols.length = procs.length → ∀ i : Nat,
    (splitScan c rn i cols procs).on_node_to_off_proc =
      (((List.range procs.length).filter
        (fun k => decide (get_node c (procs.getD k 0) = rn))).map (· + i)) ∧
    (splitScan c rn i cols procs).off_node_to_off_proc =
      (((List.range procs.length).filter
        (fun k => ! decide (get_node c (procs.getD k 0) = rn))).map (· + i)) ∧
    (splitScan c rn i cols procs).on_node_column_map =
      (((List.range procs.length).filter
        (fun k => decide (get_node c (procs.getD k 0) = rn))).map
          (fun k => cols.getD k 0)) ∧
    (splitScan c rn i cols procs).on_node_col_to_proc =
      (((List.range procs.length).filter
        (fun k => decide (get_node c (procs.getD k 0) = rn))).map
          (fun k => get_local_proc c (procs.getD k 0))) ∧
    (splitScan c rn i cols procs).off_node_column_map =
      (((List.range procs.length).filter
        (fun k => ! decide (get_node c (procs.getD k 0) = rn))).map
          (fun k => cols.getD k 0)) ∧
    (splitScan c rn i cols procs).off_node_col_to_node =
      (((List.range procs.length).filter
        (fun k => ! decide (get_node c (procs.getD k 0) = rn))).map
          (fun k => get_node c (procs.getD k 0))) := by
  intro cols
  induction cols with
  | nil =>
    intro procs hlen i
    have hp : procs = [] := List.eq_nil_of_length_eq_zero hlen.symm
    subst hp
    exact ⟨rfl, rfl, rfl, rfl, rfl, rfl⟩
  | cons col cols ih =>
    intro procs hlen i
    match procs with
    | [] => simp at hlen
    | proc :: procs =>
      have hlen' : cols.length = procs.length := by simpa using hlen
      obtain ⟨ih1, ih2, ih3, ih4, ih5, ih6⟩ := ih procs hlen' (i + 1)
      have hPT : ((fun k => decide (get_node c ((proc :: procs).getD k 0) = rn))
            ∘ Nat.succ) =
          (fun k => decide (get_node c (procs.getD k 0) = rn)) := by
        funext k
        simp [Function.comp]
      have hPF : ((fun k => ! decide (get_node c ((proc :: procs).getD k 0) = rn))
            ∘ Nat.succ) =
          (fun k => ! decide (get_node c (procs.getD k 0) = rn)) := by
        funext k
        simp [Function.comp]
      have hVpos : ((fun k : Nat => k + i) ∘ Nat.succ) = (fun k : Nat => k + (i + 1)) := by
        funext k
        simp [Function.comp]
        omega
      have hVcol : ((fun k => (col :: cols).getD k 0) ∘ Nat.succ) =
          (fun k => cols.getD k 0) := by
        funext k
        simp [Function.comp]
      have hVlp : ((fun k => get_local_proc c ((proc :: procs).getD k 0)) ∘ Nat.succ) =
          (fun k => get_local_proc c (procs.getD k 0)) := by
        funext k
        simp [Function.comp]
      have hVgn : ((fun k => get_node c ((proc :: procs).getD k 0)) ∘ Nat.succ) =
          (fun k => get_node c (procs.getD k 0)) := by
        funext k
        simp [Function.comp]
      have hn : (proc :: procs).length = procs.length + 1 := rfl
      by_cases h : get_node c proc = rn
      · have hstep : splitScan c rn i (col :: cols) (proc :: procs) =
            (let r := splitScan c rn (i + 1) cols procs
             { r with
               on_node_column_map := col :: r.on_node_column_map
               on_node_col_to_proc :=
                 get_local_proc c proc :: r.on_node_col_to_proc
               on_node_to_off_proc := i :: r.on_node_to_off_proc }) := by
          simp only [splitScan]
          rw [if_pos h]
        rw [hstep]
        refine ⟨?_, ?_, ?_, ?_, ?_, ?_⟩ <;>
          simp only [hn, filter_map_range_cons, hPT, hPF, hVpos, hVcol, hVlp, hVgn,
            List.getD_cons_zero, h, List.nil_append, List.cons_append,
            List.singleton_append] <;>
          simp [ih1, ih2, ih3, ih4, ih5, ih6, h]
      · have hstep : splitScan c rn i (col :: cols) (proc :: procs) =
            (let r := splitScan c rn (i + 1) cols procs
             { r with
               off_node_column_map := col :: r.off_node_column_map
               off_node_col_to_node := get_node c proc :: r.off_node_col_to_node
               off_node_to_off_proc := i :: r.off_node_to_off_proc }) := by
          simp only [splitScan]
          rw [if_neg h]
        rw [hstep]
        refine ⟨?_, ?_, ?_, ?_, ?_, ?_⟩ <;>
          simp only [hn, filter_map_range_cons, hPT, hPF, hVpos, hVcol, hVlp, hVgn,
            List.getD_cons_zero, h, List.nil_append, List.cons_append,
            List.singleton_append] <;>
          simp [ih1, ih2, ih3, ih4, ih5, ih6, h]

/-- C7: split_off_proc_cols partitions the off-process columns by whether
the owner's host equals the caller's host, pairing on-node columns with
the owner's intra-host rank and off-node columns with the owner's host id;
the two correspondence lists are the strictly increasing lists of
positions selected by that test, and together they cover every position of
the original off_proc list exactly once.  The embedding is pure, so the
inputs are left untouched by construction (the source takes them as const
references). -/
theorem C7_split_partition (c : TMCfg) (cols procs : List Nat)
    (hlen : cols.length = procs.length) :
    (split_off_proc_cols c cols procs).on_node_to_off_proc =
      (List.range procs.length).filter
        (fun k => decide (get_node c (procs.getD k 0) = get_node c c.rank)) ∧
    (split_off_proc_cols c cols procs).off_node_to_off_proc =
      (List.range procs.length).filter
        (fun k => ! decide (get_node c (procs.getD k 0) = get_node c c.rank)) ∧
    (split_off_proc_cols c cols procs).on_node_column_map =
      ((List.range procs.length).filter
        (fun k => decide (get_node c (procs.getD k 0) = get_node c c.rank))).map
          (fun k => cols.getD k 0) ∧
    (split_off_proc_cols c cols procs).on_node_col_to_proc =
      ((List.range procs.length).filter
        (fun k => decide (get_node c (procs.getD k 0) = get_node c c.rank))).map
          (fun k => get_local_proc c (procs.getD k 0)) ∧
    (split_off_proc_cols c cols procs).off_node_column_map =
      ((List.range procs.length).filter
        (fun k => ! decide (get_node c (procs.getD k 0) = get_node c c.rank))).map
          (fun k => cols.getD k 0) ∧
    (split_off_proc_cols c cols procs).off_node_col_to_node =
      ((List.range procs.length).filter
        (fun k => ! decide (get_node c (procs.getD k 0) = get_node c c.rank))).map
          (fun k => get_node c (procs.getD k 0)) ∧
    List.Pairwise (· < ·) (split_off_proc_cols c cols procs).on_node_to_off_proc ∧
    List.Pairwise (· < ·) (split_off_proc_cols c cols procs).off_node_to_off_proc ∧
    ((split_off_proc_cols c cols procs).on_node_to_off_proc ++
      (split_off_proc_cols c cols procs).off_node_to_off_proc).Perm
        (List.range procs.length) := by
  obtain ⟨h1, h2, h3, h4, h5, h6⟩ :=
    splitScan_spec c (get_node c c.rank) cols procs hlen 0
  have hid : ∀ l : List Nat, l.map (· + 0) = l := by
    intro l
    simp
  unfold split_off_proc_cols
  rw [h1, h2, h3, h4, h5, h6, hid, hid]
  refine ⟨rfl, rfl, rfl, rfl, rfl, rfl, ?_, ?_, ?_⟩
  · exact List.Pairwise.sublist (List.filter_sublist _) (List.pairwise_lt_range _)
  · exact List.Pairwise.sublist (List.filter_sublist _) (List.pairwise_lt_range _)
  · exact List.filter_append_perm _ _

theorem C7_split_partition_witness :
    ([10, 11, 12] : List Nat).length = ([1, 2, 3] : List Nat).length ∧
    ((split_off_proc_cols ⟨1, 2, 2, 0⟩ [10, 11, 12] [1, 2, 3]).on_node_to_off_proc ++
      (split_off_proc_cols ⟨1, 2, 2, 0⟩ [10, 11, 12] [1, 2, 3]).off_node_to_off_proc).Perm
        (List.range ([1, 2, 3] : List Nat).length) :=
  ⟨by decide,
    (C7_split_partition ⟨1, 2, 2, 0⟩ [10, 11, 12] [1, 2, 3] (by decide)).2.2.2.2.2.2.2.2⟩

/-! ## Index rewrite: TAPComm::adjust_send_indices -/

/-- The std::map built at tap_comm.cpp lines 792-796 (S stage) and again
at lines 805-809 (global stage): map[recv_indices[i]] = i for i ascending
from the given start, a later insert overwriting an earlier one. -/
def buildIdxMap : List Nat → Nat → (Nat → Option Nat)
  | [], _ => fun _ => none
  | x :: rest, i => fun k =>
    match buildIdxMap rest (i + 1) k with
    | some j => some j
    | none => if k = x then some i else none

/-- The rewrite loops of TAPComm::adjust_send_indices (lines 797-801 and
810-814): each identifier recorded in the send ledger is replaced by
map[idx]; std::map operator[] default-inserts value 0 when the key is
absent, so an identifier that does not occur in the receive buffer is
silently rewritten to position 0. -/
def adjust_send_indices (recv send : List Nat) : List Nat :=
  send.map (fun v => (buildIdxMap recv 0 v).getD 0)

lemma buildIdxMap_not_mem : ∀ (recv : List Nat) (i v : Nat), v ∉ recv →
    buildIdxMap recv i v = none := by
  intro recv
  induction recv with
  | nil => intro i v _; rfl
  | cons x rest ih =>
    intro i v hv
    have hvx : v ≠ x := fun h => hv (h ▸ List.mem_cons_self x rest)
    have hvr : v ∉ rest := fun h => hv (List.mem_cons_of_mem x h)
    simp only [buildIdxMap, ih (i + 1) v hvr]
    rw [if_neg hvx]

lemma buildIdxMap_mem : ∀ (recv : List Nat) (i v : Nat), v ∈ recv →
    ∃ j, buildIdxMap recv i v = some (i + j) ∧ j < recv.length ∧
      recv.getD j 0 = v := by
  intro recv
  induction recv with
  | nil => intro i v hv; simp at hv
  | cons x rest ih =>
    intro i v hv
    by_cases hvr : v ∈ rest
    · obtain ⟨j, hj1, hj2, hj3⟩ := ih (i + 1) v hvr
      refine ⟨j + 1, ?_, by simpa using hj2, by simpa using hj3⟩
      simp only [buildIdxMap, hj1]
      congr 1
      omega
    · have hvx : v = x := by
        rcases List.mem_cons.mp hv with h | h
        · exact h
        · exact absurd h hvr
      refine ⟨0, ?_, by simp, by simp [hvx]⟩
      simp only [buildIdxMap, buildIdxMap_not_mem rest (i + 1) v hvr]
      rw [if_pos hvx, Nat.add_zero]

/-- C10: the index rewrite silently defaults to position 0.  For every
receive buffer and send ledger: an identifier recorded in the send ledger
that does not occur in the receive buffer is rewritten to 0 with no error
raised (std::map operator[] default-inserts), and the postcondition that
a rewritten index is a position of the original identifier in the receive
buffer holds whenever the identifier does occur there. -/
theorem C10_adjust_default_zero (recv send : List Nat) :
    (∀ k, k < send.length → send.getD k 0 ∉ recv →
        (adjust_send_indices recv send).getD k 0 = 0) ∧
    (∀ k, k < send.length → send.getD k 0 ∈ recv →
        (adjust_send_indices recv send).getD k 0 < recv.length ∧
        recv.getD ((adjust_send_indices recv send).getD k 0) 0 =
          send.getD k 0) := by
  have hmap : ∀ k, k < send.length →
      (adjust_send_indices recv send).getD k 0 =
        (buildIdxMap recv 0 (send.getD k 0)).getD 0 := by
    intro k hk
    unfold adjust_send_indices
    rw [List.getD_eq_getElem _ _ (by simpa using hk), List.getElem_map,
      List.getD_eq_getElem _ _ hk]
  constructor
  · intro k hk hni
    rw [hmap k hk, buildIdxMap_not_mem recv 0 _ hni]
    rfl
  · intro k hk hmem
    obtain ⟨j, hj1, hj2, hj3⟩ := buildIdxMap_mem recv 0 _ hmem
    rw [hmap k hk, hj1]
    simp only [Option.getD_some, Nat.zero_add]
    exact ⟨hj2, hj3⟩

theorem C10_adjust_default_zero_witness :
    ((0 : Nat) < ([5, 9] : List Nat).length ∧ (5 : Nat) ∉ ([7, 9] : List Nat) ∧
      (adjust_send_indices [7, 9] [5, 9]).getD 0 0 = 0) ∧
    ((1 : Nat) < ([5, 9] : List Nat).length ∧ (9 : Nat) ∈ ([7, 9] : List Nat) ∧
      ([7, 9] : List Nat).getD ((adjust_send_indices [7, 9] [5, 9]).getD 1 0) 0 =
        ([5, 9] : List Nat).getD 1 0) :=
  ⟨⟨by decide, by decide,
      (C10_adjust_default_zero [7, 9] [5, 9]).1 0 (by decide) (by decide)⟩,
   ⟨by decide, by decide,
      ((C10_adjust_default_zero [7, 9] [5, 9]).2 1 (by decide) (by decide)).2⟩⟩

/-! ## Counting-sort kernel shared by form_local_R_par_comm and
form_global_par_comm

Both routines place items into a flat array bucketed by a key: sizes are
counted per key, exclusive prefix offsets are formed from the counts, and
a second pass over the items writes each one at displs[key] + sizes[key]++
(tap_comm.cpp lines 413-442, key = destination local rank, value = column
position; lines 554-579, key = recv-peer slot of the origin node, value =
the gathered global column index).  Items are (key, value) pairs in
visiting order. -/

def keyCount (L : List (Nat × Nat)) (b : Nat) : Nat :=
  (L.filter (fun x => x.1 == b)).length

def keyDispl (L : List (Nat × Nat)) (b : Nat) : Nat :=
  ∑ i ∈ Finset.range b, keyCount L i

/-- One write of the placement pass: bump the running size of the item's
key and store the value at displs[key] + old running size. -/
def fillStep (displs : Nat → Nat) (s : (Nat → Nat) × (Nat → Nat))
    (x : Nat × Nat) : (Nat → Nat) × (Nat → Nat) :=
  (fun b => if b = x.1 then s.1 b + 1 else s.1 b,
   fun pos => if pos = displs x.1 + s.1 x.1 then x.2 else s.2 pos)

/-- The placement pass over all items, from zeroed running sizes and an
arbitrary (zero) array. -/
def fillLoop (L : List (Nat × Nat)) : (Nat → Nat) × (Nat → Nat) :=
  L.foldl (fillStep (keyDispl L)) (fun _ => 0, fun _ => 0)

/-- The message slice extracted for key b: the flat array between
displs[b] and displs[b+1]. -/
def bucketSlice (L : List (Nat × Nat)) (b : Nat) : List Nat :=
  (List.range (keyCount L b)).map (fun t => (fillLoop L).2 (keyDispl L b + t))

lemma keyCount_append (P Q : List (Nat × Nat)) (b : Nat) :
    keyCount (P ++ Q) b = keyCount P b + keyCount Q b := by
  simp [keyCount, List.filter_append]

lemma keyDispl_succ (L : List (Nat × Nat)) (b : Nat) :
    keyDispl L (b + 1) = keyDispl L b + keyCount L b :=
  Finset.sum_range_succ _ b

lemma keyDispl_mono (L : List (Nat × Nat)) {a b : Nat} (h : a ≤ b) :
    keyDispl L a ≤ keyDispl L b :=
  Finset.sum_le_sum_of_subset (Finset.range_subset.mpr h)

lemma bucketPos_lt (L : List (Nat × Nat)) {b k t u : Nat} (hbk : b < k)
    (ht : t < keyCount L b) :
    keyDispl L b + t < keyDispl L k + u := by
  have h1 : keyDispl L b + t < keyDispl L (b + 1) := by
    rw [keyDispl_succ]
    omega
  have h2 : keyDispl L (b + 1) ≤ keyDispl L k := keyDispl_mono L hbk
  omega

lemma bucketPos_ne (L : List (Nat × Nat)) {b k t u : Nat} (hbk : b ≠ k)
    (ht : t < keyCount L b) (hu : u < keyCount L k) :
    keyDispl L b + t ≠ keyDispl L k + u := by
  rcases Nat.lt_or_ge b k with h | h
  · exact Nat.ne_of_lt (bucketPos_lt L h ht)
  · have hkb : k < b := by omega
    exact (Nat.ne_of_lt (bucketPos_lt L hkb hu)).symm

lemma fill_inv (L : List (Nat × Nat)) :
    ∀ (S P : List (Nat × Nat)) (s : (Nat → Nat) × (Nat → Nat)),
    P ++ S = L →
    (∀ b, s.1 b = keyCount P b) →
    (∀ b t, t < keyCount P b →
      s.2 (keyDispl L b + t) =
        ((P.filter (fun x => x.1 == b)).map Prod.snd).getD t 0) →
    (∀ b, (S.foldl (fillStep (keyDispl L)) s).1 b = keyCount (P ++ S) b) ∧
    (∀ b t, t < keyCount (P ++ S) b →
      (S.foldl (fillStep (keyDispl L)) s).2 (keyDispl L b + t) =
        (((P ++ S).filter (fun x => x.1 == b)).map Prod.snd).getD t 0) := by
  intro S
  induction S with
  | nil =>
    intro P s hL h1 h2
    constructor
    · intro b
      simpa using h1 b
    · intro b t ht
      simp only [List.append_nil] at ht ⊢
      exact h2 b t ht
  | cons x rest ih =>
    intro P s hL h1 h2
    have hL' : (P ++ [x]) ++ rest = L := by
      rw [List.append_assoc]
      simpa using hL
    have hsingle : ∀ b, keyCount [x] b = if x.1 = b then 1 else 0 := by
      intro b
      by_cases hb : x.1 = b
      · have hbeq : (x.1 == b) = true := by simpa using hb
        simp [keyCount, List.filter_cons, hbeq, hb]
      · have hbeq : (x.1 == b) = false := by simpa using hb
        simp [keyCount, List.filter_cons, hbeq, hb]
    have hcountL : ∀ b, keyCount (P ++ [x]) b ≤ keyCount L b := by
      intro b
      rw [← hL', keyCount_append (P ++ [x]) rest]
      omega
    have hPx1L : keyCount P x.1 < keyCount L x.1 := by
      rw [← hL, keyCount_append]
      have hpos : 0 < keyCount (x :: rest) x.1 := by
        simp [keyCount, List.filter_cons]
      omega
    have hx1 : ∀ b, (fillStep (keyDispl L) s x).1 b = keyCount (P ++ [x]) b := by
      intro b
      rw [keyCount_append, hsingle]
      simp only [fillStep, h1]
      by_cases hb : b = x.1
      · rw [if_pos hb, if_pos hb.symm]
      · rw [if_neg hb, if_neg (fun h => hb h.symm)]
        omega
    have hx2 : ∀ b t, t < keyCount (P ++ [x]) b →
        (fillStep (keyDispl L) s x).2 (keyDispl L b + t) =
          (((P ++ [x]).filter (fun y => y.1 == b)).map Prod.snd).getD t 0 := by
      intro b t ht
      have hcnt : keyCount (P ++ [x]) b = keyCount P b + keyCount [x] b :=
        keyCount_append P [x] b
      have hfilt : ((P ++ [x]).filter (fun y => y.1 == b)).map Prod.snd =
          (P.filter (fun y => y.1 == b)).map Prod.snd ++
            ([x].filter (fun y => y.1 == b)).map Prod.snd := by
        rw [List.filter_append, List.map_append]
      have hlenP : ((P.filter (fun y => y.1 == b)).map Prod.snd).length =
          keyCount P b := by
        simp [keyCount]
      by_cases hb : b = x.1
      · rcases Nat.lt_or_ge t (keyCount P b) with htP | htP
        · have hne : keyDispl L b + t ≠ keyDispl L x.1 + s.1 x.1 := by
            rw [← hb, h1 b]
            omega
          simp only [fillStep]
          rw [if_neg hne, h2 b t htP, hfilt]
          rw [List.getD_append _ _ _ _ (by rw [hlenP]; exact htP)]
        · have ht1 : keyCount [x] b = 1 := by
            rw [hsingle, if_pos hb.symm]
          have htEq : t = keyCount P b := by
            rw [hcnt, ht1] at ht
            omega
          simp only [fillStep]
          have hpos : keyDispl L b + t = keyDispl L x.1 + s.1 x.1 := by
            rw [← hb, h1 b, htEq]
          rw [if_pos hpos, hfilt]
          have hx_filt : ([x].filter (fun y => y.1 == b)).map Prod.snd = [x.2] := by
            have hbeq : (x.1 == b) = true := by simpa using hb.symm
            simp [List.filter_cons, hbeq]
          rw [hx_filt]
          rw [List.getD_eq_getElem _ _ (by simp [hlenP]; omega)]
          rw [List.getElem_append_right (by rw [hlenP]; omega)]
          simp [hlenP, htEq]
      · have htP : t < keyCount P b := by
          rw [hcnt, hsingle, if_neg (fun h => hb h.symm)] at ht
          omega
        have htL : t < keyCount L b :=
          Nat.lt_of_lt_of_le ht (hcountL b)
        have hne : keyDispl L b + t ≠ keyDispl L x.1 + s.1 x.1 := by
          rw [h1 x.1]
          exact bucketPos_ne L hb htL hPx1L
        simp only [fillStep]
        rw [if_neg hne, h2 b t htP, hfilt]
        rw [List.getD_append _ _ _ _ (by rw [hlenP]; exact htP)]
    have hmain := ih (P ++ [x]) (fillStep (keyDispl L) s x) hL' hx1 hx2
    constructor
    · intro b
      have := hmain.1 b
      simpa [List.append_assoc] using this
    · intro b t ht
      have htx : t < keyCount ((P ++ [x]) ++ rest) b := by
        rw [List.append_assoc]
        simpa using ht
      have := hmain.2 b t htx
      simpa [List.append_assoc] using this

/-- The slice written for key b is exactly the values of the items with
that key, in visiting order. -/
lemma bucketSlice_eq (L : List (Nat × Nat)) (b : Nat) :
    bucketSlice L b = (L.filter (fun x => x.1 == b)).map Prod.snd := by
  have hinit1 : ∀ c, ((fun _ => 0, fun _ => 0) :
      (Nat → Nat) × (Nat → Nat)).1 c = keyCount [] c := by
    intro c
    simp [keyCount]
  have hinit2 : ∀ c t, t < keyCount ([] : List (Nat × Nat)) c →
      ((fun _ => 0, fun _ => 0) : (Nat → Nat) × (Nat → Nat)).2
          (keyDispl L c + t) =
        ((([] : List (Nat × Nat)).filter (fun x => x.1 == c)).map
          Prod.snd).getD t 0 := by
    intro c t ht
    simp [keyCount] at ht
  obtain ⟨hc, hv⟩ := fill_inv L L [] (fun _ => 0, fun _ => 0) rfl hinit1 hinit2
  apply List.ext_getElem
  · simp [bucketSlice, keyCount]
  · intro t h1 h2
    have hlen : t < keyCount L b := by
      simpa [bucketSlice] using h1
    have hvv := hv b t (by simpa using hlen)
    simp only [List.nil_append] at hvv
    simp only [bucketSlice, List.getElem_map, List.getElem_range]
    show (fillLoop L).2 (keyDispl L b + t) = _
    unfold fillLoop
    rw [hvv, List.getD_eq_getElem _ _ h2, List.getElem_map]

lemma flatMap_congr_local {α β : Type} {f g : α → List β} :
    ∀ (l : List α), (∀ a ∈ l, f a = g a) → l.flatMap f = l.flatMap g := by
  intro l
  induction l with
  | nil => intro _; rfl
  | cons a l ih =>
    intro h
    rw [List.flatMap_cons, List.flatMap_cons, h a (List.mem_cons_self a l),
      ih (fun b hb => h b (List.mem_cons_of_mem a hb))]

/-- Every item lands in exactly one bucket: concatenating the buckets over
any duplicate-free key list covering all keys is a permutation of the
items. -/
lemma flatMap_filter_key_perm :
    ∀ (L : List (Nat × Nat)) (bs : List Nat), bs.Nodup →
    (∀ x ∈ L, x.1 ∈ bs) →
    (bs.flatMap (fun b => L.filter (fun x => x.1 == b))).Perm L := by
  intro L
  induction L with
  | nil =>
    intro bs _ _
    simp
  | cons x rest ih =>
    intro bs hnd hmem
    have hx : x.1 ∈ bs := hmem x (List.mem_cons_self x rest)
    obtain ⟨B1, B2, hbs⟩ := List.append_of_mem hx
    subst hbs
    obtain ⟨hnd1, hnd2, hdisj⟩ := List.nodup_append.mp hnd
    have hx1B1 : x.1 ∉ B1 := fun h => hdisj h (List.mem_cons_self _ _)
    have hx1B2 : x.1 ∉ B2 := (List.nodup_cons.mp hnd2).1
    have hne_filt : ∀ b, b ≠ x.1 →
        (x :: rest).filter (fun y => y.1 == b) =
          rest.filter (fun y => y.1 == b) := by
      intro b hb
      rw [List.filter_cons, if_neg (by simpa using Ne.symm hb)]
    have heq_filt : (x :: rest).filter (fun y => y.1 == x.1) =
        x :: rest.filter (fun y => y.1 == x.1) := by
      rw [List.filter_cons, if_pos (by simp)]
    have hB1 : B1.flatMap (fun b => (x :: rest).filter (fun y => y.1 == b)) =
        B1.flatMap (fun b => rest.filter (fun y => y.1 == b)) :=
      flatMap_congr_local B1 (fun b hb =>
        hne_filt b (fun h => hx1B1 (h ▸ hb)))
    have hB2 : B2.flatMap (fun b => (x :: rest).filter (fun y => y.1 == b)) =
        B2.flatMap (fun b => rest.filter (fun y => y.1 == b)) :=
      flatMap_congr_local B2 (fun b hb =>
        hne_filt b (fun h => hx1B2 (h ▸ hb)))
    have hsplit : (B1 ++ x.1 :: B2).flatMap
        (fun b => (x :: rest).filter (fun y => y.1 == b)) =
        B1.flatMap (fun b => rest.filter (fun y => y.1 == b)) ++
          x :: (rest.filter (fun y => y.1 == x.1) ++
            B2.flatMap (fun b => rest.filter (fun y => y.1 == b))) := by
      rw [List.flatMap_append, List.flatMap_cons, hB1, hB2, heq_filt]
      rw [List.cons_append]
    rw [hsplit]
    refine List.Perm.trans List.perm_middle ?_
    refine List.Perm.cons x ?_
    have hre : B1.flatMap (fun b => rest.filter (fun y => y.1 == b)) ++
        (rest.filter (fun y => y.1 == x.1) ++
          B2.flatMap (fun b => rest.filter (fun y => y.1 == b))) =
        (B1 ++ x.1 :: B2).flatMap (fun b => rest.filter (fun y => y.1 == b)) := by
      rw [List.flatMap_append, List.flatMap_cons]
    rw [hre]
    exact ih (B1 ++ x.1 :: B2) hnd
      (fun y hy => hmem y (List.mem_cons_of_mem x hy))

/-! ## R-stage slot assignment: TAPComm::form_local_R_par_comm -/

/-- The node_to_proc loop (tap_comm.cpp lines 402-411): the host at sorted
position i gets base slot ctr % PPN, where ctr is the running sum of the
fan-out counts of the preceding hosts. -/
def baseSlots (PPN : Nat) : List Nat → Nat → List Nat
  | [], _ => []
  | f :: rest, ctr => (ctr % PPN) :: baseSlots PPN rest (ctr + f)

/-- The per-column loop (lines 414-427): each column combines its owning
host's base slot with the host's current fan-out slot modulo PPN; the
host's slot counter proc_idx cycles through 0, ..., fanout-1, wrapping
back to 0 once the fan-out is exhausted. -/
def assignCols (PPN : Nat) (nidx : Nat → Nat) (base fanouts : List Nat) :
    List Nat → (Nat → Nat) → List Nat
  | [], _ => []
  | node :: rest, pidx =>
    ((base.getD (nidx node) 0 + pidx (nidx node)) % PPN) ::
      assignCols PPN nidx base fanouts rest (fun k =>
        if k = nidx node then
          (if pidx (nidx node) + 1 < fanouts.getD (nidx node) 0 then
            pidx (nidx node) + 1
           else 0)
        else pidx k)

/-- Destination local rank of every off-node column
(off_node_col_to_lcl_proc): node_to_idx is realized as the position of the
node inside recv_nodes (the loop at lines 403-407 writes
node_to_idx[recv_nodes[i]] = i, which for a duplicate-free recv_nodes is
List.indexOf), and all slot counters start at 0. -/
def colToLclProc (PPN : Nat) (recv_nodes fanouts cols : List Nat) : List Nat :=
  assignCols PPN (fun nd => List.indexOf nd recv_nodes)
    (baseSlots PPN fanouts 0) fanouts cols (fun _ => 0)

lemma baseSlots_getD (PPN : Nat) :
    ∀ (fanouts : List Nat) (ctr i : Nat), i < fanouts.length →
    (baseSlots PPN fanouts ctr).getD i 0 =
      (ctr + (fanouts.take i).sum) % PPN := by
  intro fanouts
  induction fanouts with
  | nil => intro ctr i hi; simp at hi
  | cons f rest ih =>
    intro ctr i hi
    match i with
    | 0 => simp [baseSlots]
    | Nat.succ m =>
      have hm : m < rest.length := by simpa using hi
      simp only [baseSlots, List.getD_cons_succ]
      rw [ih (ctr + f) m hm, List.take_succ_cons, List.sum_cons]
      congr 1
      omega

/-- The proc_idx update rule is counting modulo the fan-out. -/
lemma cycle_mod (g f : Nat) (hf : 0 < f) :
    (if g % f + 1 < f then g % f + 1 else 0) = (g + 1) % f := by
  have hlt : g % f < f := Nat.mod_lt g hf
  have hbase : (g + 1) % f = (g % f + 1) % f := by
    conv_lhs => rw [← Nat.mod_add_div g f]
    rw [Nat.add_right_comm, Nat.add_mul_mod_self_left]
  by_cases h : g % f + 1 < f
  · rw [if_pos h, hbase, Nat.mod_eq_of_lt h]
  · have hEq : g % f + 1 = f := by omega
    rw [if_neg h, hbase, hEq, Nat.mod_self]

/-- Closed form of the per-column loop: the column at position k is sent
to (base slot of its host + (number of earlier columns of the same host,
as identified through node_to_idx, modulo the host's fan-out)) % PPN.  `g`
abstracts the slot-counter history so the statement can be peeled
inductively; at the top level g = 0. -/
lemma assignCols_getD (PPN : Nat) (nidx : Nat → Nat) (base fanouts : List Nat) :
    ∀ (cols : List Nat) (pidx g : Nat → Nat),
    (∀ i, 0 < fanouts.getD i 0 → pidx i = g i % fanouts.getD i 0) →
    ∀ k, k < cols.length →
    0 < fanouts.getD (nidx (cols.getD k 0)) 0 →
    (assignCols PPN nidx base fanouts cols pidx).getD k 0 =
      (base.getD (nidx (cols.getD k 0)) 0 +
        (g (nidx (cols.getD k 0)) +
          ((cols.take k).filter
            (fun nd => nidx nd == nidx (cols.getD k 0))).length) %
          fanouts.getD (nidx (cols.getD k 0)) 0) % PPN := by
  intro cols
  induction cols with
  | nil => intro pidx g hpg k hk hfan; simp at hk
  | cons nd0 rest ih =>
    intro pidx g hpg k hk hfan
    have hkey : ∀ (b fq u v : Nat), u = v →
        (b + u % fq) % PPN = (b + v % fq) % PPN := by
      intro b fq u v h
      rw [h]
    match k with
    | 0 =>
      simp only [List.getD_cons_zero] at hfan ⊢
      simp only [assignCols, List.getD_cons_zero, List.take_zero,
        List.filter_nil, List.length_nil, Nat.add_zero]
      rw [hpg (nidx nd0) hfan]
    | Nat.succ m =>
      have hm : m < rest.length := by simpa using hk
      simp only [List.getD_cons_succ] at hfan ⊢
      simp only [assignCols, List.getD_cons_succ]
      have hinv : ∀ i, 0 < fanouts.getD i 0 →
          (fun kk => if kk = nidx nd0 then
            (if pidx (nidx nd0) + 1 < fanouts.getD (nidx nd0) 0 then
              pidx (nidx nd0) + 1
             else 0)
           else pidx kk) i =
          (fun kk => if kk = nidx nd0 then g kk + 1 else g kk) i %
            fanouts.getD i 0 := by
        intro i hi
        show (if i = nidx nd0 then
            (if pidx (nidx nd0) + 1 < fanouts.getD (nidx nd0) 0 then
              pidx (nidx nd0) + 1
             else 0)
          else pidx i) =
          (if i = nidx nd0 then g i + 1 else g i) % fanouts.getD i 0
        by_cases hieq : i = nidx nd0
        · rw [if_pos hieq, if_pos hieq, ← hieq]
          rw [hpg i hi]
          exact cycle_mod (g i) (fanouts.getD i 0) hi
        · rw [if_neg hieq, if_neg hieq]
          exact hpg i hi
      rw [ih _ (fun kk => if kk = nidx nd0 then g kk + 1 else g kk) hinv m hm hfan]
      rw [List.take_succ_cons, List.filter_cons]
      by_cases hcase : nidx nd0 = nidx (rest.getD m 0)
      · rw [if_pos hcase.symm, if_pos (by simpa using hcase), List.length_cons]
        apply hkey
        omega
      · rw [if_neg (fun h => hcase h.symm), if_neg (by simpa using hcase)]

lemma assignCols_length (PPN : Nat) (nidx : Nat → Nat) (base fanouts : List Nat) :
    ∀ (cols : List Nat) (pidx : Nat → Nat),
    (assignCols PPN nidx base fanouts cols pidx).length = cols.length := by
  intro cols
  induction cols with
  | nil => intro pidx; rfl
  | cons nd rest ih =>
    intro pidx
    simp only [assignCols, List.length_cons, ih]

lemma assignCols_lt (PPN : Nat) (hppn : 0 < PPN) (nidx : Nat → Nat)
    (base fanouts : List Nat) :
    ∀ (cols : List Nat) (pidx : Nat → Nat),
    ∀ v ∈ assignCols PPN nidx base fanouts cols pidx, v < PPN := by
  intro cols
  induction cols with
  | nil => intro pidx v hv; simp [assignCols] at hv
  | cons nd rest ih =>
    intro pidx v hv
    simp only [assignCols, List.mem_cons] at hv
    rcases hv with h | h
    · subst h
      exact Nat.mod_lt _ hppn
    · exact ih _ v h

/-- The items of the R-stage counting sort (lines 429-442): position i is
filed under its destination local rank, and the value stored is i itself
(local_recv_indices[idx] = i). -/
def RItems (PPN : Nat) (recv_nodes fanouts cols : List Nat) : List (Nat × Nat) :=
  (List.range cols.length).map
    (fun i => ((colToLclProc PPN recv_nodes fanouts cols).getD i 0, i))

/-- The index list of the recv-ledger message for destination local rank
lp (lines 445-455): the slice between local_recv_displs[lp] and
local_recv_displs[lp+1], empty when no column is assigned there. -/
def RRecvMsg (PPN : Nat) (recv_nodes fanouts cols : List Nat) (lp : Nat) :
    List Nat :=
  bucketSlice (RItems PPN recv_nodes fanouts cols) lp

lemma colToLclProc_length (PPN : Nat) (recv_nodes fanouts cols : List Nat) :
    (colToLclProc PPN recv_nodes fanouts cols).length = cols.length := by
  unfold colToLclProc
  exact assignCols_length _ _ _ _ _ _

lemma RRecvMsg_eq_filter (PPN : Nat) (recv_nodes fanouts cols : List Nat)
    (lp : Nat) :
    RRecvMsg PPN recv_nodes fanouts cols lp =
      (List.range cols.length).filter
        (fun i => (colToLclProc PPN recv_nodes fanouts cols).getD i 0 == lp) := by
  unfold RRecvMsg RItems
  rw [bucketSlice_eq, List.filter_map, List.map_map]
  have hpred : ∀ a ∈ List.range cols.length,
      ((fun x : Nat × Nat => x.1 == lp) ∘
        (fun i => ((colToLclProc PPN recv_nodes fanouts cols).getD i 0, i))) a =
      ((colToLclProc PPN recv_nodes fanouts cols).getD a 0 == lp) :=
    fun a _ => rfl
  rw [List.filter_congr hpred]
  have hmapid : (Prod.snd ∘
      (fun i => ((colToLclProc PPN recv_nodes fanouts cols).getD i 0, i))) =
      (id : Nat → Nat) := rfl
  rw [hmapid, List.map_id]

lemma RCoverage (PPN : Nat) (recv_nodes fanouts cols : List Nat)
    (hppn : 0 < PPN) :
    ((List.range PPN).flatMap (RRecvMsg PPN recv_nodes fanouts cols)).Perm
      (List.range cols.length) := by
  have hkeys : ∀ x ∈ RItems PPN recv_nodes fanouts cols, x.1 ∈ List.range PPN := by
    intro x hx
    unfold RItems at hx
    obtain ⟨i, hi, rfl⟩ := List.mem_map.mp hx
    simp only [List.mem_range] at hi ⊢
    have hgd : (colToLclProc PPN recv_nodes fanouts cols).getD i 0 ∈
        colToLclProc PPN recv_nodes fanouts cols := by
      rw [List.getD_eq_getElem _ _ (by rw [colToLclProc_length]; exact hi)]
      exact List.getElem_mem _
    unfold colToLclProc at hgd ⊢
    exact assignCols_lt PPN hppn _ _ fanouts cols (fun _ => 0) _ hgd
  have hperm := flatMap_filter_key_perm (RItems PPN recv_nodes fanouts cols)
    (List.range PPN) (List.nodup_range PPN) hkeys
  have h1 : (List.range PPN).flatMap (RRecvMsg PPN recv_nodes fanouts cols) =
      ((List.range PPN).flatMap
        (fun b => (RItems PPN recv_nodes fanouts cols).filter
          (fun x => x.1 == b))).map Prod.snd := by
    rw [List.map_flatMap]
    exact flatMap_congr_local _ (fun b _ => by
      unfold RRecvMsg
      rw [bucketSlice_eq])
  have h2 : (RItems PPN recv_nodes fanouts cols).map Prod.snd =
      List.range cols.length := by
    unfold RItems
    rw [List.map_map]
    have hid : (Prod.snd ∘ fun i =>
        ((colToLclProc PPN recv_nodes fanouts cols).getD i 0, i)) =
        (id : Nat → Nat) := rfl
    rw [hid, List.map_id]
  rw [h1]
  exact h2 ▸ (hperm.map Prod.snd)

/-- C5: R-stage slot assignment and coverage.  The column at position k is
assigned to local rank (base + slot) % PPN where base is the running sum
of the preceding hosts' fan-out counts modulo PPN and slot is the number
of earlier columns of the same host modulo that host's fan-out (round
robin with wrap-around); the recv-ledger message for each destination
local rank is the increasing list of the column positions assigned to it;
and the messages together cover every off-node column position exactly
once. -/
theorem C5_R_slot_assignment_and_coverage
    (PPN : Nat) (recv_nodes fanouts cols : List Nat)
    (hppn : 0 < PPN)
    (hnd : recv_nodes.Nodup)
    (hlen : fanouts.length = recv_nodes.length)
    (hfan : ∀ f ∈ fanouts, 0 < f)
    (hmem : ∀ nd ∈ cols, nd ∈ recv_nodes) :
    (∀ k, k < cols.length →
      (colToLclProc PPN recv_nodes fanouts cols).getD k 0 =
        ((fanouts.take (List.indexOf (cols.getD k 0) recv_nodes)).sum % PPN +
          ((cols.take k).filter (fun nd => nd == cols.getD k 0)).length %
            fanouts.getD (List.indexOf (cols.getD k 0) recv_nodes) 0) % PPN) ∧
    (∀ lp, RRecvMsg PPN recv_nodes fanouts cols lp =
      (List.range cols.length).filter
        (fun i => (colToLclProc PPN recv_nodes fanouts cols).getD i 0 == lp)) ∧
    ((List.range PPN).flatMap (RRecvMsg PPN recv_nodes fanouts cols)).Perm
      (List.range cols.length) := by
  refine ⟨?_, fun lp => RRecvMsg_eq_filter PPN recv_nodes fanouts cols lp,
    RCoverage PPN recv_nodes fanouts cols hppn⟩
  intro k hk
  have hndk_mem : cols.getD k 0 ∈ cols := by
    rw [List.getD_eq_getElem _ _ hk]
    exact List.getElem_mem _
  have hndk_rn : cols.getD k 0 ∈ recv_nodes := hmem _ hndk_mem
  have hidx : List.indexOf (cols.getD k 0) recv_nodes < recv_nodes.length :=
    List.indexOf_lt_length.mpr hndk_rn
  have hidxf : List.indexOf (cols.getD k 0) recv_nodes < fanouts.length := by
    rw [hlen]
    exact hidx
  have hfanidx : 0 < fanouts.getD (List.indexOf (cols.getD k 0) recv_nodes) 0 := by
    rw [List.getD_eq_getElem _ _ hidxf]
    exact hfan _ (List.getElem_mem _)
  have h := assignCols_getD PPN (fun nd => List.indexOf nd recv_nodes)
    (baseSlots PPN fanouts 0) fanouts cols (fun _ => 0) (fun _ => 0)
    (fun i hi => (Nat.zero_mod _).symm) k hk hfanidx
  unfold colToLclProc
  rw [h, baseSlots_getD PPN fanouts 0 _ hidxf, Nat.zero_add, Nat.zero_add]
  have hfe : (cols.take k).filter
      (fun nd => List.indexOf nd recv_nodes ==
        List.indexOf (cols.getD k 0) recv_nodes) =
      (cols.take k).filter (fun nd => nd == cols.getD k 0) := by
    refine List.filter_congr (fun nd hnd => ?_)
    have h1 : nd ∈ recv_nodes := hmem nd (List.take_subset k cols hnd)
    by_cases he : nd = cols.getD k 0
    · simp [he]
    · show (List.indexOf nd recv_nodes ==
          List.indexOf (cols.getD k 0) recv_nodes) = (nd == cols.getD k 0)
      have hiff := List.indexOf_inj h1 hndk_rn
      have h2 : (List.indexOf nd recv_nodes ==
          List.indexOf (cols.getD k 0) recv_nodes) = false :=
        beq_eq_false_iff_ne.mpr (fun hc => he (hiff.mp hc))
      have h3 : (nd == cols.getD k 0) = false := beq_eq_false_iff_ne.mpr he
      rw [h2, h3]
  rw [hfe]

theorem C5_R_slot_assignment_and_coverage_witness :
    (0 : Nat) < 2 ∧
    ((List.range 2).flatMap (RRecvMsg 2 [3, 1] [2, 1] [3, 3, 3, 1])).Perm
      (List.range ([3, 3, 3, 1] : List Nat).length) :=
  ⟨by decide,
    (C5_R_slot_assignment_and_coverage 2 [3, 1] [2, 1] [3, 3, 3, 1]
      (by decide) (by decide) (by decide) (by decide) (by decide)).2.2⟩

/-! ## Global-stage deduplication: TAPComm::form_global_par_comm -/

/-- Adjacent-duplicate removal (tap_comm.cpp lines 591-599): walk the
sorted segment from its second entry and keep each entry that differs
from the entry immediately before it; `prev` is the preceding entry. -/
def dedupAdjAux (prev : Nat) : List Nat → List Nat
  | [] => []
  | x :: rest => if x ≠ prev then x :: dedupAdjAux x rest else dedupAdjAux x rest

/-- Lines 591-599 in full: the first entry of the segment is always kept
(recv_buffer[0] = node_recv_indices[start]). -/
def dedupAdj : List Nat → List Nat
  | [] => []
  | x :: rest => x :: dedupAdjAux x rest

/-- The std::sort call at line 589 sorts the segment of ints ascending;
every ascending-sorted permutation of a fixed multiset is the same list,
so the executable insertion sort is exactly the result of std::sort
here. -/
def sortSegment (l : List Nat) : List Nat := List.insertionSort (· ≤ ·) l

/-- The items of the global-stage counting sort (lines 556-579): the
value gathered at position i (local_R_par_comm send indices, a global
column id) is filed under the recv-peer slot of its origin node,
node_recv_idx realized as the position of the node among the recv peers'
nodes (the loop at lines 563-570 writes node_recv_idx[get_node(proc)] = i
for the i-th recv peer, which for distinct peer nodes is List.indexOf). -/
def GItems (nodeOf : Nat → Nat) (recv_procs orig_nodes indices : List Nat) :
    List (Nat × Nat) :=
  (List.range orig_nodes.length).map
    (fun i => (List.indexOf (orig_nodes.getD i 0) (recv_procs.map nodeOf),
      indices.getD i 0))

/-- The index list added to the global-stage recv ledger for the lp-th
recv peer (lines 581-602): the bucketed segment, sorted and
adjacent-deduplicated. -/
def GRecvMsg (nodeOf : Nat → Nat) (recv_procs orig_nodes indices : List Nat)
    (lp : Nat) : List Nat :=
  dedupAdj (sortSegment
    (bucketSlice (GItems nodeOf recv_procs orig_nodes indices) lp))

lemma bucketSlice_map_range (key val : Nat → Nat) (n b : Nat) :
    bucketSlice ((List.range n).map (fun i => (key i, val i))) b =
      ((List.range n).filter (fun i => key i == b)).map val := by
  rw [bucketSlice_eq, List.filter_map, List.map_map]
  rw [List.filter_congr
    (fun a _ => rfl :
      ∀ a ∈ List.range n,
        ((fun x : Nat × Nat => x.1 == b) ∘ (fun i => (key i, val i))) a =
          (key a == b))]
  rfl

lemma mem_dedupAdjAux_sorted :
    ∀ (xs : List Nat) (prev : Nat), List.Sorted (· ≤ ·) xs →
    (∀ y ∈ xs, prev ≤ y) →
    ∀ a, a ∈ dedupAdjAux prev xs ↔ (a ∈ xs ∧ a ≠ prev) := by
  intro xs
  induction xs with
  | nil => intro prev _ _ a; simp [dedupAdjAux]
  | cons x rest ih =>
    intro prev hs hge a
    have hs' : List.Sorted (· ≤ ·) rest := hs.of_cons
    have hxle : ∀ y ∈ rest, x ≤ y := fun y hy => (List.sorted_cons.mp hs).1 y hy
    have hpx : prev ≤ x := hge x (List.mem_cons_self x rest)
    by_cases hxp : x = prev
    · have hout : dedupAdjAux prev (x :: rest) = dedupAdjAux x rest := by
        simp [dedupAdjAux, hxp]
      rw [hout, ih x hs' hxle a]
      subst hxp
      constructor
      · intro ⟨h1, h2⟩
        exact ⟨List.mem_cons_of_mem x h1, h2⟩
      · intro ⟨h1, h2⟩
        rcases List.mem_cons.mp h1 with h | h
        · exact absurd h h2
        · exact ⟨h, h2⟩
    · have hout : dedupAdjAux prev (x :: rest) = x :: dedupAdjAux x rest := by
        simp [dedupAdjAux, hxp]
      rw [hout]
      simp only [List.mem_cons, ih x hs' hxle a]
      constructor
      · intro h
        rcases h with h | ⟨h1, h2⟩
        · exact ⟨Or.inl h, h ▸ hxp⟩
        · refine ⟨Or.inr h1, ?_⟩
          intro hap
          have hxa : x ≤ a := hxle a h1
          subst hap
          exact hxp (le_antisymm hxa hpx)
      · intro ⟨h1, h2⟩
        rcases h1 with h | h
        · exact Or.inl h
        · by_cases hax : a = x
          · exact Or.inl hax
          · exact Or.inr ⟨h, hax⟩

lemma dedupAdjAux_sorted :
    ∀ (xs : List Nat) (prev : Nat), List.Sorted (· ≤ ·) xs →
    (∀ y ∈ xs, prev ≤ y) →
    List.Pairwise (· < ·) (dedupAdjAux prev xs) ∧
      (∀ z ∈ dedupAdjAux prev xs, prev < z) := by
  intro xs
  induction xs with
  | nil => intro prev _ _; simp [dedupAdjAux]
  | cons x rest ih =>
    intro prev hs hge
    have hs' : List.Sorted (· ≤ ·) rest := hs.of_cons
    have hxle : ∀ y ∈ rest, x ≤ y := fun y hy => (List.sorted_cons.mp hs).1 y hy
    have hpx : prev ≤ x := hge x (List.mem_cons_self x rest)
    obtain ⟨ihp, ihgt⟩ := ih x hs' hxle
    by_cases hxp : x = prev
    · have hout : dedupAdjAux prev (x :: rest) = dedupAdjAux x rest := by
        simp [dedupAdjAux, hxp]
      rw [hout]
      exact ⟨ihp, fun z hz => hxp ▸ ihgt z hz⟩
    · have hout : dedupAdjAux prev (x :: rest) = x :: dedupAdjAux x rest := by
        simp [dedupAdjAux, hxp]
      rw [hout]
      have hpltx : prev < x := lt_of_le_of_ne hpx (fun h => hxp h.symm)
      refine ⟨List.pairwise_cons.mpr ⟨fun z hz => ihgt z hz, ihp⟩, ?_⟩
      intro z hz
      rcases List.mem_cons.mp hz with h | h
      · exact h ▸ hpltx
      · exact lt_trans hpltx (ihgt z h)

/-- On an ascending-sorted list, the adjacent-deduplication of the source
yields a strictly increasing list with the same members. -/
lemma dedupAdj_spec (l : List Nat) (hs : List.Sorted (· ≤ ·) l) :
    List.Pairwise (· < ·) (dedupAdj l) ∧ (∀ a, a ∈ dedupAdj l ↔ a ∈ l) := by
  match l with
  | [] => exact ⟨List.Pairwise.nil, by simp [dedupAdj]⟩
  | x :: rest =>
    have hs' : List.Sorted (· ≤ ·) rest := hs.of_cons
    have hxle : ∀ y ∈ rest, x ≤ y := fun y hy => (List.sorted_cons.mp hs).1 y hy
    obtain ⟨hp, hgt⟩ := dedupAdjAux_sorted rest x hs' hxle
    constructor
    · exact List.pairwise_cons.mpr ⟨fun z hz => hgt z hz, hp⟩
    · intro a
      show a ∈ x :: dedupAdjAux x rest ↔ _
      simp only [List.mem_cons, mem_dedupAdjAux_sorted rest x hs' hxle a]
      constructor
      · intro h
        rcases h with h | ⟨h1, _⟩
        · exact Or.inl h
        · exact Or.inr h1
      · intro h
        rcases h with h | h
        · exact Or.inl h
        · by_cases hax : a = x
          · exact Or.inl hax
          · exact Or.inr ⟨h, hax⟩

/-- C6: for each inter-host recv peer, the index list added to the
global-stage recv ledger is strictly increasing and has exactly the
members of the duplicate-bearing list of global column indices gathered
from the R stage whose origin node is that peer's node.  Hypotheses
reflect the state in which form_global_par_comm runs: the recv peers
live on pairwise distinct nodes, and every gathered origin node is one
of the recv peers' nodes (otherwise the source reads the uninitialized
node_recv_idx entry). -/
theorem C6_global_dedup (nodeOf : Nat → Nat)
    (recv_procs orig_nodes indices : List Nat)
    (hnd : (recv_procs.map nodeOf).Nodup)
    (hmem : ∀ nd ∈ orig_nodes, nd ∈ recv_procs.map nodeOf) :
    ∀ lp, lp < recv_procs.length →
      List.Pairwise (· < ·)
        (GRecvMsg nodeOf recv_procs orig_nodes indices lp) ∧
      ∀ a, a ∈ GRecvMsg nodeOf recv_procs orig_nodes indices lp ↔
        a ∈ ((List.range orig_nodes.length).filter
          (fun i => orig_nodes.getD i 0 ==
            (recv_procs.map nodeOf).getD lp 0)).map
              (fun i => indices.getD i 0) := by
  intro lp hlp
  have hlp' : lp < (recv_procs.map nodeOf).length := by
    simpa using hlp
  have hbucket : bucketSlice (GItems nodeOf recv_procs orig_nodes indices) lp =
      ((List.range orig_nodes.length).filter
        (fun i => orig_nodes.getD i 0 ==
          (recv_procs.map nodeOf).getD lp 0)).map
            (fun i => indices.getD i 0) := by
    unfold GItems
    rw [bucketSlice_map_range]
    refine congrArg _ (List.filter_congr (fun i hi => ?_))
    have hio : orig_nodes.getD i 0 ∈ orig_nodes := by
      rw [List.getD_eq_getElem _ _ (List.mem_range.mp hi)]
      exact List.getElem_mem _
    have hin : orig_nodes.getD i 0 ∈ recv_procs.map nodeOf := hmem _ hio
    have hiff : (List.indexOf (orig_nodes.getD i 0) (recv_procs.map nodeOf) = lp) ↔
        (orig_nodes.getD i 0 = (recv_procs.map nodeOf).getD lp 0) := by
      constructor
      · intro h
        have hlt : List.indexOf (orig_nodes.getD i 0) (recv_procs.map nodeOf) <
            (recv_procs.map nodeOf).length := List.indexOf_lt_length.mpr hin
        have hge := List.getElem_indexOf hlt
        simp only [h] at hge
        rw [List.getD_eq_getElem _ _ hlp']
        exact hge.symm
      · intro h
        rw [List.getD_eq_getElem _ _ hlp'] at h
        rw [h]
        exact List.indexOf_getElem hnd lp hlp'
    by_cases hc : List.indexOf (orig_nodes.getD i 0) (recv_procs.map nodeOf) = lp
    · have h1 : (List.indexOf (orig_nodes.getD i 0) (recv_procs.map nodeOf) ==
          lp) = true := by simpa using hc
      have h2 : (orig_nodes.getD i 0 ==
          (recv_procs.map nodeOf).getD lp 0) = true := by
        simpa using hiff.mp hc
      rw [h1, h2]
    · have h1 : (List.indexOf (orig_nodes.getD i 0) (recv_procs.map nodeOf) ==
          lp) = false := beq_eq_false_iff_ne.mpr hc
      have h2 : (orig_nodes.getD i 0 ==
          (recv_procs.map nodeOf).getD lp 0) = false :=
        beq_eq_false_iff_ne.mpr (fun h => hc (hiff.mpr h))
      rw [h1, h2]
  have hsorted : List.Sorted (· ≤ ·)
      (sortSegment (bucketSlice (GItems nodeOf recv_procs orig_nodes indices) lp)) :=
    List.sorted_insertionSort _ _
  obtain ⟨hp, hmem'⟩ := dedupAdj_spec _ hsorted
  refine ⟨hp, fun a => ?_⟩
  unfold GRecvMsg
  rw [hmem' a]
  unfold sortSegment
  rw [(List.perm_insertionSort (· ≤ ·) _).mem_iff]
  rw [hbucket]

theorem C6_global_dedup_witness :
    (1 : Nat) < ([0, 2] : List Nat).length ∧
    List.Pairwise (· < ·)
      (GRecvMsg (fun p => p / 2) [0, 2] [1, 0, 1, 1] [9, 4, 9, 7] 1) ∧
    (7 ∈ GRecvMsg (fun p => p / 2) [0, 2] [1, 0, 1, 1] [9, 4, 9, 7] 1 ↔
      7 ∈ ((List.range ([1, 0, 1, 1] : List Nat).length).filter
        (fun i => ([1, 0, 1, 1] : List Nat).getD i 0 ==
          (([0, 2] : List Nat).map (fun p => p / 2)).getD 1 0)).map
            (fun i => ([9, 4, 9, 7] : List Nat).getD i 0)) ∧
    (4 ∈ GRecvMsg (fun p => p / 2) [0, 2] [1, 0, 1, 1] [9, 4, 9, 7] 1 ↔
      4 ∈ ((List.range ([1, 0, 1, 1] : List Nat).length).filter
        (fun i => ([1, 0, 1, 1] : List Nat).getD i 0 ==
          (([0, 2] : List Nat).map (fun p => p / 2)).getD 1 0)).map
            (fun i => ([9, 4, 9, 7] : List Nat).getD i 0)) :=
  ⟨by decide,
    (C6_global_dedup (fun p => p / 2) [0, 2] [1, 0, 1, 1] [9, 4, 9, 7]
      (by decide) (by decide) 1 (by decide)).1,
    (C6_global_dedup (fun p => p / 2) [0, 2] [1, 0, 1, 1] [9, 4, 9, 7]
      (by decide) (by decide) 1 (by decide)).2 7,
    (C6_global_dedup (fun p => p / 2) [0, 2] [1, 0, 1, 1] [9, 4, 9, 7]
      (by decide) (by decide) 1 (by decide)).2 4⟩

/-! ## In-place cycle-following reorder (tap_comm.cpp lines 185-202)

The source applies the sort permutation p to recv_nodes and
nodal_num_local in lock step by walking the cycles of p and swapping both
arrays at each step.  The two arrays are modelled as one array of pairs;
a swap of the pair array is exactly the two lock-step swaps. -/

def swapFn {α : Type} (f : Nat → α) (a b : Nat) : Nat → α :=
  fun k => if k = a then f b else if k = b then f a else f k

/-- The while loop at lines 194-201 for the cycle entered at i: prev_j
trails j along the permutation until j returns to i; each step swaps the
entries at prev_j and j and marks j done.  Fuel bounds the number of
iterations; the outer loop passes n, enough for any cycle. -/
def cycleWalk {α : Type} (p : Nat → Nat) (i : Nat) :
    Nat → Nat → Nat → ((Nat → α) × (Nat → Bool)) → ((Nat → α) × (Nat → Bool))
  | 0, _, _, s => s
  | fuel + 1, prev, j, s =>
    if j = i then s
    else cycleWalk p i fuel j (p j)
      (swapFn s.1 prev j, fun k => if k = j then true else s.2 k)

/-- One iteration of the outer loop at lines 187-202: skip a done entry,
otherwise mark i done and walk its cycle. -/
def cycleStep {α : Type} (p : Nat → Nat) (n : Nat)
    (s : (Nat → α) × (Nat → Bool)) (i : Nat) : (Nat → α) × (Nat → Bool) :=
  if s.2 i = true then s
  else cycleWalk p i n i (p i) (s.1, fun k => if k = i then true else s.2 k)

/-- The full reorder: scan i = 0, ..., n-1 over an initially all-false
done array. -/
def cycleReorder {α : Type} (p : Nat → Nat) (n : Nat) (f : Nat → α) :
    (Nat → α) × (Nat → Bool) :=
  (List.range n).foldl (cycleStep p n) (f, fun _ => false)

lemma iterLt (p : Nat → Nat) (n : Nat) (hp1 : ∀ k, k < n → p k < n)
    {i : Nat} (hi : i < n) : ∀ t, p^[t] i < n := by
  intro t
  induction t with
  | zero => simpa
  | succ a ih =>
    rw [Function.iterate_succ_apply']
    exact hp1 _ ih

lemma iterCancel (p : Nat → Nat) (n : Nat) (hp1 : ∀ k, k < n → p k < n)
    (hp2 : ∀ a b, a < n → b < n → p a = p b → a = b)
    {x y : Nat} (hx : x < n) (hy : y < n) :
    ∀ a, p^[a] x = p^[a] y → x = y := by
  intro a
  induction a with
  | zero => simpa
  | succ t ih =>
    intro h
    rw [Function.iterate_succ_apply', Function.iterate_succ_apply'] at h
    exact ih (hp2 _ _ (iterLt p n hp1 hx t) (iterLt p n hp1 hy t) h)

lemma existsPeriod (p : Nat → Nat) (n : Nat) (hp1 : ∀ k, k < n → p k < n)
    (hp2 : ∀ a b, a < n → b < n → p a = p b → a = b)
    {i : Nat} (hi : i < n) : ∃ m, 0 < m ∧ m ≤ n ∧ p^[m] i = i := by
  have hmaps : ∀ a ∈ Finset.range (n + 1), p^[a] i ∈ Finset.range n := by
    intro a _
    exact Finset.mem_range.mpr (iterLt p n hp1 hi a)
  obtain ⟨a, ha, b, hb, hab, heq⟩ :=
    Finset.exists_ne_map_eq_of_card_lt_of_maps_to
      (by simp : (Finset.range n).card < (Finset.range (n + 1)).card) hmaps
  have ha' : a ≤ n := by simpa using Nat.lt_succ_iff.mp (Finset.mem_range.mp ha)
  have hb' : b ≤ n := by simpa using Nat.lt_succ_iff.mp (Finset.mem_range.mp hb)
  rcases Nat.lt_or_ge a b with h | h
  · refine ⟨b - a, by omega, by omega, ?_⟩
    have : p^[a + (b - a)] i = p^[a] (p^[b - a] i) := Function.iterate_add_apply p a (b - a) i
    have hba : a + (b - a) = b := by omega
    rw [hba] at this
    exact iterCancel p n hp1 hp2 (iterLt p n hp1 hi (b - a)) hi a
      (by rw [← this, heq])
  · have hlt : b < a := by omega
    refine ⟨a - b, by omega, by omega, ?_⟩
    have : p^[b + (a - b)] i = p^[b] (p^[a - b] i) := Function.iterate_add_apply p b (a - b) i
    have hba : b + (a - b) = a := by omega
    rw [hba] at this
    exact iterCancel p n hp1 hp2 (iterLt p n hp1 hi (a - b)) hi b
      (by rw [← this, heq])

lemma iterPeriodMul (p : Nat → Nat) {i m : Nat} (hper : p^[m] i = i) :
    ∀ c, p^[m * c] i = i := by
  intro c
  induction c with
  | zero => simp
  | succ t ih =>
    have : m * (t + 1) = m * t + m := by ring
    rw [this, Function.iterate_add_apply, hper, ih]

/-- Effect of one full cycle walk entered at step t (1 ≤ t ≤ m, where m is
the minimal period of i): every cycle position from t-1 up receives the
value of its successor along the permutation, the last cycle position
receives the value held at entry position t-1, everything else is
untouched, and exactly the cycle positions from t on get marked done. -/
lemma cycleWalk_spec {α : Type} (p : Nat → Nat) (i m : Nat)
    (hm1 : 0 < m) (hper : p^[m] i = i)
    (hdist : ∀ a b, a < m → b < m → p^[a] i = p^[b] i → a = b) :
    ∀ (fuel t : Nat), 1 ≤ t → t ≤ m → m - t ≤ fuel →
    ∀ (f : Nat → α) (d : Nat → Bool),
    (∀ a, t - 1 ≤ a → a < m - 1 →
      (cycleWalk p i fuel (p^[t-1] i) (p^[t] i) (f, d)).1 (p^[a] i) =
        f (p^[a+1] i)) ∧
    ((cycleWalk p i fuel (p^[t-1] i) (p^[t] i) (f, d)).1 (p^[m-1] i) =
      f (p^[t-1] i)) ∧
    (∀ k, (∀ a, t - 1 ≤ a → a < m → k ≠ p^[a] i) →
      (cycleWalk p i fuel (p^[t-1] i) (p^[t] i) (f, d)).1 k = f k) ∧
    (∀ a, t ≤ a → a < m →
      (cycleWalk p i fuel (p^[t-1] i) (p^[t] i) (f, d)).2 (p^[a] i) = true) ∧
    (∀ k, (∀ a, t ≤ a → a < m → k ≠ p^[a] i) →
      (cycleWalk p i fuel (p^[t-1] i) (p^[t] i) (f, d)).2 k = d k) := by
  have dNe : ∀ a b, a < m → b < m → a ≠ b → p^[a] i ≠ p^[b] i :=
    fun a b ha hb hne heq => hne (hdist a b ha hb heq)
  intro fuel
  induction fuel with
  | zero =>
    intro t ht1 htm hfuel f d
    have ht : t = m := by omega
    subst ht
    refine ⟨?_, rfl, fun k _ => rfl, ?_, fun k _ => rfl⟩
    · intro a ha1 ha2
      omega
    · intro a ha1 ha2
      omega
  | succ fu ih =>
    intro t ht1 htm hfuel f d
    by_cases htme : t = m
    · have hper' : p^[t] i = i := by rw [htme]; exact hper
      have hstop : cycleWalk p i (fu + 1) (p^[t-1] i) (p^[t] i) (f, d) = (f, d) := by
        simp only [cycleWalk]
        rw [if_pos hper']
      rw [hstop]
      refine ⟨?_, by rw [htme], fun k _ => rfl, ?_, fun k _ => rfl⟩
      · intro a ha1 ha2
        omega
      · intro a ha1 ha2
        omega
    · have htm' : t < m := by omega
      have hji : p^[t] i ≠ i := by
        intro h
        have h0 : p^[t] i = p^[0] i := by simpa using h
        have := hdist t 0 htm' hm1 h0
        omega
      have hstep : cycleWalk p i (fu + 1) (p^[t-1] i) (p^[t] i) (f, d) =
          cycleWalk p i fu (p^[t] i) (p^[t+1] i)
            (swapFn f (p^[t-1] i) (p^[t] i),
             fun k => if k = p^[t] i then true else d k) := by
        rw [Function.iterate_succ_apply']
        simp only [cycleWalk]
        rw [if_neg hji]
      have hIH := ih (t + 1) (by omega) (by omega) (by omega)
        (swapFn f (p^[t-1] i) (p^[t] i))
        (fun k => if k = p^[t] i then true else d k)
      simp only [Nat.add_sub_cancel] at hIH
      obtain ⟨A1, A2, A3, A4, A5⟩ := hIH
      have hne_tt1 : p^[t] i ≠ p^[t-1] i := dNe t (t-1) htm' (by omega) (by omega)
      have hsw_prev : swapFn f (p^[t-1] i) (p^[t] i) (p^[t-1] i) = f (p^[t] i) := by
        simp [swapFn]
      have hsw_j : swapFn f (p^[t-1] i) (p^[t] i) (p^[t] i) = f (p^[t-1] i) := by
        simp [swapFn, hne_tt1]
      have hsw_other : ∀ k, k ≠ p^[t-1] i → k ≠ p^[t] i →
          swapFn f (p^[t-1] i) (p^[t] i) k = f k := by
        intro k h1 h2
        simp [swapFn, h1, h2]
      rw [hstep]
      refine ⟨?_, ?_, ?_, ?_, ?_⟩
      · intro a ha1 ha2
        by_cases hat : a = t - 1
        · subst hat
          have hnotin : ∀ a', t ≤ a' → a' < m → p^[t-1] i ≠ p^[a'] i :=
            fun a' h1 h2 => dNe (t-1) a' (by omega) h2 (by omega)
          rw [A3 _ hnotin, hsw_prev]
          have : t - 1 + 1 = t := by omega
          rw [this]
        · have hat' : t ≤ a := by omega
          rw [A1 a hat' ha2]
          exact hsw_other _ (dNe (a+1) (t-1) (by omega) (by omega) (by omega))
            (dNe (a+1) t (by omega) htm' (by omega))
      · rw [A2, hsw_j]
      · intro k hk
        have hk' : ∀ a, t ≤ a → a < m → k ≠ p^[a] i :=
          fun a h1 h2 => hk a (by omega) h2
        rw [A3 k hk']
        exact hsw_other k (hk (t-1) (by omega) (by omega)) (hk t (by omega) htm')
      · intro a ha1 ha2
        by_cases hat : a = t
        · have hnotin : ∀ a', t + 1 ≤ a' → a' < m → p^[a] i ≠ p^[a'] i :=
            fun a' h1 h2 => dNe a a' ha2 h2 (by omega)
          rw [A5 _ hnotin]
          rw [if_pos (show p^[a] i = p^[t] i by rw [hat])]
        · exact A4 a (by omega) ha2
      · intro k hk
        have hk' : ∀ a, t + 1 ≤ a → a < m → k ≠ p^[a] i :=
          fun a h1 h2 => hk a (by omega) h2
        rw [A5 k hk']
        rw [if_neg (hk t (by omega) htm')]

/-- Invariant of the outer loop: the done set lies below n, is closed
under p, covers every index below the loop counter, and the array holds
f0 after p on done entries and f0 unchanged elsewhere. -/
def ReorderInv {α : Type} (p : Nat → Nat) (n : Nat) (f0 : Nat → α)
    (iBound : Nat) (s : (Nat → α) × (Nat → Bool)) : Prop :=
  (∀ k, s.2 k = true → k < n) ∧
  (∀ k, s.2 k = true → s.2 (p k) = true) ∧
  (∀ k, k < iBound → s.2 k = true) ∧
  (∀ k, (s.2 k = true → s.1 k = f0 (p k)) ∧ (s.2 k = false → s.1 k = f0 k))

lemma cycleStep_inv {α : Type} (p : Nat → Nat) (n : Nat) (f0 : Nat → α)
    (hp1 : ∀ k, k < n → p k < n)
    (hp2 : ∀ a b, a < n → b < n → p a = p b → a = b)
    (i : Nat) (hin : i < n) (s : (Nat → α) × (Nat → Bool))
    (hs : ReorderInv p n f0 i s) :
    ReorderInv p n f0 (i + 1) (cycleStep p n s i) := by
  obtain ⟨I1, I2, I3, I4⟩ := hs
  by_cases hd : s.2 i = true
  · unfold cycleStep
    rw [if_pos hd]
    refine ⟨I1, I2, ?_, I4⟩
    intro k hk
    rcases Nat.lt_or_ge k i with h | h
    · exact I3 k h
    · have : k = i := by omega
      exact this ▸ hd
  · have hdf : s.2 i = false := by
      cases h : s.2 i
      · rfl
      · exact absurd h hd
    have hstep : cycleStep p n s i =
        cycleWalk p i n i (p i) (s.1, fun k => if k = i then true else s.2 k) := by
      unfold cycleStep
      rw [if_neg hd]
    obtain ⟨m0, hm01, hm0n, hm0per⟩ := existsPeriod p n hp1 hp2 hin
    have hex : ∃ t, 0 < t ∧ p^[t] i = i := ⟨m0, hm01, hm0per⟩
    obtain ⟨hm1, hper⟩ := Nat.find_spec hex
    have hmn : Nat.find hex ≤ n := Nat.le_trans (Nat.find_min' hex ⟨hm01, hm0per⟩) hm0n
    set m := Nat.find hex with hmdef
    have hmin : ∀ t, 0 < t → t < m → p^[t] i ≠ i := by
      intro t ht1 htm hcon
      exact Nat.find_min hex htm ⟨ht1, hcon⟩
    have hdist : ∀ a b, a < m → b < m → p^[a] i = p^[b] i → a = b := by
      have hcancel : ∀ a b, a < b → b < m → p^[a] i = p^[b] i → False := by
        intro a b hab hbm heq
        have hsum : a + (b - a) = b := by omega
        have hii : p^[a + (b - a)] i = p^[a] (p^[b - a] i) :=
          Function.iterate_add_apply p a (b - a) i
        rw [hsum] at hii
        have hci : p^[b - a] i = i :=
          iterCancel p n hp1 hp2 (iterLt p n hp1 hin (b - a)) hin a
            (by rw [← hii, ← heq])
        exact hmin (b - a) (by omega) (by omega) hci
      intro a b ha hb heq
      rcases Nat.lt_trichotomy a b with h | h | h
      · exact absurd heq (fun hc => hcancel a b h hb hc)
      · exact h
      · exact absurd heq (fun hc => hcancel b a h ha hc.symm)
    have hW := cycleWalk_spec p i m hm1 hper hdist n 1 (le_refl 1) hm1
      (by omega) s.1 (fun k => if k = i then true else s.2 k)
    simp only [show (1 : Nat) - 1 = 0 from rfl, Function.iterate_zero_apply,
      Function.iterate_one] at hW
    obtain ⟨W1, W2, W3, W4, W5⟩ := hW
    rw [hstep]
    set r := cycleWalk p i n i (p i)
      (s.1, fun k => if k = i then true else s.2 k) with hrdef
    have hclosed_iter : ∀ c, s.2 c = true → ∀ b, s.2 (p^[b] c) = true := by
      intro c hc b
      induction b with
      | zero => simpa
      | succ t ih =>
        rw [Function.iterate_succ_apply']
        exact I2 _ ih
    have hnotdone : ∀ a, a < m → s.2 (p^[a] i) = false := by
      intro a ha
      cases h : s.2 (p^[a] i)
      · rfl
      · exfalso
        have hb : p^[m * (a + 1) - a] (p^[a] i) = i := by
          rw [← Function.iterate_add_apply]
          have : m * (a + 1) - a + a = m * (a + 1) := by
            have : a < m * (a + 1) := by
              calc a < a + 1 := by omega
              _ ≤ m * (a + 1) := Nat.le_mul_of_pos_left _ hm1
            omega
          rw [this]
          exact iterPeriodMul p hper (a + 1)
        have := hclosed_iter _ h (m * (a + 1) - a)
        rw [hb] at this
        exact hd this
    have hidone : r.2 i = true := by
      have hnotin : ∀ a, 1 ≤ a → a < m → i ≠ p^[a] i :=
        fun a h1 h2 hc => hmin a (by omega) h2 hc.symm
      rw [W5 i hnotin, if_pos rfl]
    have hcycdone : ∀ a, a < m → r.2 (p^[a] i) = true := by
      intro a ha
      rcases Nat.eq_or_lt_of_le (Nat.zero_le a) with h | h
      · simpa [← h] using hidone
      · exact W4 a (by omega) ha
    have hcyc_or : ∀ k, (∃ a, a < m ∧ k = p^[a] i) ∨
        (∀ a, a < m → k ≠ p^[a] i) := by
      intro k
      by_cases h : ∃ a, a < m ∧ k = p^[a] i
      · exact Or.inl h
      · right
        intro a ha hk
        exact h ⟨a, ha, hk⟩
    have houtside2 : ∀ k, (∀ a, a < m → k ≠ p^[a] i) → r.2 k = s.2 k := by
      intro k hk
      have h5 : ∀ a, 1 ≤ a → a < m → k ≠ p^[a] i := fun a h1 h2 => hk a h2
      rw [W5 k h5, if_neg (fun hc => hk 0 hm1 (by simpa using hc))]
    have houtside1 : ∀ k, (∀ a, a < m → k ≠ p^[a] i) → r.1 k = s.1 k := by
      intro k hk
      exact W3 k (fun a _ h2 => hk a h2)
    refine ⟨?_, ?_, ?_, ?_⟩
    · intro k hk
      rcases hcyc_or k with ⟨a, ha, rfl⟩ | h
      · exact iterLt p n hp1 hin a
      · rw [houtside2 k h] at hk
        exact I1 k hk
    · intro k hk
      rcases hcyc_or k with ⟨a, ha, rfl⟩ | h
      · have hsucc : p^[a+1] i = p (p^[a] i) := Function.iterate_succ_apply' p a i
        rw [← hsucc]
        rcases Nat.lt_or_ge (a + 1) m with h1 | h1
        · exact hcycdone (a + 1) h1
        · have hm' : a + 1 = m := by omega
          rw [hm', hper]
          exact hidone
      · rw [houtside2 k h] at hk
        have hpk := I2 k hk
        have hpknot : ∀ a, a < m → p k ≠ p^[a] i := by
          intro a ha hc
          have := hnotdone a ha
          rw [← hc] at this
          rw [this] at hpk
          exact Bool.false_ne_true hpk
        rw [houtside2 _ hpknot]
        exact hpk
    · intro k hk
      rcases Nat.lt_or_ge k i with h | h
      · have hks := I3 k h
        have hknot : ∀ a, a < m → k ≠ p^[a] i := by
          intro a ha hc
          have := hnotdone a ha
          rw [← hc] at this
          rw [this] at hks
          exact Bool.false_ne_true hks
        rw [houtside2 k hknot]
        exact hks
      · have hki : k = i := by omega
        exact hki ▸ hidone
    · intro k
      constructor
      · intro hk
        rcases hcyc_or k with ⟨a, ha, rfl⟩ | h
        · have hsucc : p^[a+1] i = p (p^[a] i) := Function.iterate_succ_apply' p a i
          rcases Nat.lt_or_ge a (m - 1) with h1 | h1
          · rw [W1 a (Nat.zero_le a) h1]
            have hnd := hnotdone (a + 1) (by omega)
            rw [(I4 _).2 hnd, hsucc]
          · have ham : a = m - 1 := by omega
            have hpk : p (p^[a] i) = i := by
              rw [← hsucc]
              have ham1 : a + 1 = m := by omega
              rw [ham1, hper]
            rw [hpk, show p^[a] i = p^[m-1] i by rw [ham], W2]
            exact (I4 i).2 hdf
        · rw [houtside1 k h]
          rw [houtside2 k h] at hk
          exact (I4 k).1 hk
      · intro hk
        rcases hcyc_or k with ⟨a, ha, rfl⟩ | h
        · rw [hcycdone a ha] at hk
          exact absurd hk (by simp)
        · rw [houtside1 k h]
          rw [houtside2 k h] at hk
          exact (I4 k).2 hk

lemma cycleReorder_inv {α : Type} (p : Nat → Nat) (n : Nat) (f0 : Nat → α)
    (hp1 : ∀ k, k < n → p k < n)
    (hp2 : ∀ a b, a < n → b < n → p a = p b → a = b) :
    ReorderInv p n f0 n (cycleReorder p n f0) := by
  have hstep : ∀ j, j ≤ n →
      ReorderInv p n f0 j
        ((List.range j).foldl (cycleStep p n) (f0, fun _ => false)) := by
    intro j
    induction j with
    | zero =>
      intro _
      refine ⟨?_, ?_, ?_, ?_⟩
      · intro k hk
        exact absurd hk (by simp)
      · intro k hk
        exact absurd hk (by simp)
      · intro k hk
        omega
      · intro k
        exact ⟨fun hk => absurd hk (by simp), fun _ => rfl⟩
    | succ jj ih =>
      intro hj
      rw [List.range_succ, List.foldl_append, List.foldl_cons, List.foldl_nil]
      exact cycleStep_inv p n f0 hp1 hp2 jj (by omega) _ (ih (by omega))
  exact hstep n (le_refl n)

/-- The in-place cycle-following reorder computes out[k] = in[p[k]] on the
index range and leaves everything else alone. -/
lemma cycleReorder_eq {α : Type} (p : Nat → Nat) (n : Nat) (f0 : Nat → α)
    (hp1 : ∀ k, k < n → p k < n)
    (hp2 : ∀ a b, a < n → b < n → p a = p b → a = b) :
    ∀ k, (cycleReorder p n f0).1 k = if k < n then f0 (p k) else f0 k := by
  obtain ⟨I1, I2, I3, I4⟩ := cycleReorder_inv p n f0 hp1 hp2
  intro k
  by_cases hk : k < n
  · rw [if_pos hk]
    exact (I4 k).1 (I3 k hk)
  · rw [if_neg hk]
    have hfalse : (cycleReorder p n f0).2 k = false := by
      cases h : (cycleReorder p n f0).2 k
      · rfl
      · exact absurd (I1 k h) hk
    exact (I4 k).2 hfalse

/-- C8: applying the in-place cycle-following reorder of lines 185-202 to
the host list and the fan-out list in lock step (modelled as one array of
pairs, a pair swap being the two lock-step swaps) produces exactly the
sort-then-copy reference: out[i] = in[p[i]] for every index i of either
array, for every permutation p of the index range. -/
theorem C8_cycle_reorder (n : Nat) (pl xs ys : List Nat)
    (hperm : pl.Perm (List.range n))
    (hx : xs.length = n) (hy : ys.length = n) :
    ∀ i, i < n →
      (cycleReorder (fun k => pl.getD k 0) n
        (fun k => (xs.getD k 0, ys.getD k 0))).1 i =
        (xs.getD (pl.getD i 0) 0, ys.getD (pl.getD i 0) 0) := by
  have hlen : pl.length = n := by
    have := hperm.length_eq
    simpa using this
  have hnd : pl.Nodup := hperm.nodup_iff.mpr (List.nodup_range n)
  have hp1 : ∀ k, k < n → pl.getD k 0 < n := by
    intro k hk
    have hk' : k < pl.length := by omega
    rw [List.getD_eq_getElem _ _ hk']
    have hm : pl[k] ∈ pl := List.getElem_mem hk'
    have := hperm.mem_iff.mp hm
    simpa using this
  have hp2 : ∀ a b, a < n → b < n → pl.getD a 0 = pl.getD b 0 → a = b := by
    intro a b ha hb hab
    have ha' : a < pl.length := by omega
    have hb' : b < pl.length := by omega
    rw [List.getD_eq_getElem _ _ ha', List.getD_eq_getElem _ _ hb'] at hab
    exact (hnd.getElem_inj_iff).mp hab
  intro i hi
  rw [cycleReorder_eq (fun k => pl.getD k 0) n _ hp1 hp2 i, if_pos hi]

theorem C8_cycle_reorder_witness :
    ([2, 0, 1] : List Nat).Perm (List.range 3) ∧
    (cycleReorder (fun k => ([2, 0, 1] : List Nat).getD k 0) 3
      (fun k => (([10, 20, 30] : List Nat).getD k 0,
        ([5, 6, 7] : List Nat).getD k 0))).1 1 =
      (([10, 20, 30] : List Nat).getD (([2, 0, 1] : List Nat).getD 1 0) 0,
       ([5, 6, 7] : List Nat).getD (([2, 0, 1] : List Nat).getD 1 0) 0) :=
  ⟨by decide,
    C8_cycle_reorder 3 [2, 0, 1] [10, 20, 30] [5, 6, 7]
      (by decide) (by decide) (by decide) 1 (by decide)⟩

/-! ## Full gather_off_node_nodes pipeline output (lines 145-202)

The fan-out loop writes its value at the original position idx = p[i]
(nodal_num_local[idx] = n_procs); the subsequent cycle reorder permutes
recv_nodes and nodal_num_local into the sorted order.  Writing is
modelled as a fold of List.set over (position, value) pairs; the break
branch of the loop leaves entries at their initial value 1, which
coincides with writing 1 over the replicate-1 initial array. -/

def scatterByPerm (ps vs init : List Nat) : List Nat :=
  List.foldl (fun arr x => arr.set x.1 x.2) init (ps.zip vs)

lemma scatter_length : ∀ (pv : List (Nat × Nat)) (init : List Nat),
    (List.foldl (fun arr x => arr.set x.1 x.2) init pv).length = init.length := by
  intro pv
  induction pv with
  | nil => intro init; rfl
  | cons x rest ih =>
    intro init
    rw [List.foldl_cons, ih, List.length_set]

lemma scatter_untouched : ∀ (pv : List (Nat × Nat)) (init : List Nat) (q : Nat),
    (∀ x ∈ pv, x.1 ≠ q) →
    (List.foldl (fun arr x => arr.set x.1 x.2) init pv).getD q 0 =
      init.getD q 0 := by
  intro pv
  induction pv with
  | nil => intro init q _; rfl
  | cons x rest ih =>
    intro init q hq
    rw [List.foldl_cons, ih _ q (fun y hy => hq y (List.mem_cons_of_mem x hy))]
    by_cases hlt : q < init.length
    · rw [List.getD_eq_getElem _ _ (by rw [List.length_set]; exact hlt),
        List.getD_eq_getElem _ _ hlt]
      exact List.getElem_set_ne (hq x (List.mem_cons_self x rest)) _
    · have h1 : (init.set x.1 x.2).length ≤ q := by
        rw [List.length_set]
        omega
      rw [List.getD_eq_default _ _ h1, List.getD_eq_default _ _ (by omega)]

lemma scatter_read : ∀ (ps vs init : List Nat), ps.length = vs.length →
    ps.Nodup → (∀ x ∈ ps, x < init.length) →
    ∀ i, i < ps.length →
    (scatterByPerm ps vs init).getD (ps.getD i 0) 0 = vs.getD i 0 := by
  intro ps
  induction ps with
  | nil => intro vs init _ _ _ i hi; simp at hi
  | cons p0 rest ih =>
    intro vs init hlen hnd hmem i hi
    match vs with
    | [] => simp at hlen
    | v0 :: vrest =>
      have hlen' : rest.length = vrest.length := by simpa using hlen
      have hp0 : p0 < init.length := hmem p0 (List.mem_cons_self _ _)
      unfold scatterByPerm
      rw [List.zip_cons_cons, List.foldl_cons]
      match i with
      | 0 =>
        simp only [List.getD_cons_zero]
        have hrest : ∀ y ∈ rest.zip vrest, y.1 ≠ p0 := by
          intro y hy hc
          obtain ⟨a, b⟩ := y
          have ha : a ∈ rest := (List.of_mem_zip hy).1
          have hc' : a = p0 := hc
          rw [hc'] at ha
          exact (List.nodup_cons.mp hnd).1 ha
        rw [scatter_untouched (rest.zip vrest) (init.set p0 v0) p0 hrest]
        rw [List.getD_eq_getElem _ _ (by rw [List.length_set]; exact hp0)]
        exact List.getElem_set_self _
      | Nat.succ k =>
        simp only [List.getD_cons_succ]
        have ihm : ∀ x ∈ rest, x < (init.set p0 v0).length := by
          intro x hx
          rw [List.length_set]
          exact hmem x (List.mem_cons_of_mem _ hx)
        exact ih vrest (init.set p0 v0) hlen' (List.nodup_cons.mp hnd).2 ihm k
          (by simpa using hi)

/-- The complete output of gather_off_node_nodes: the (host, fan-out)
pairs in their final reordered positions.  The write-back of the fan-out
loop lands at original position p[i] and the cycle reorder then permutes
both arrays by p. -/
def lbFinal (P : LBParams) (recv_nodes sizes p : List Nat) :
    List (Nat × Nat) :=
  (List.range recv_nodes.length).map (fun i =>
    (cycleReorder (fun k => p.getD k 0) recv_nodes.length
      (fun k => (recv_nodes.getD k 0,
        (scatterByPerm p
          (fanoutSeq P recv_nodes.length (p.map (fun idx => sizes.getD idx 0)))
          (List.replicate recv_nodes.length 1)).getD k 0))).1 i)

instance (sizes p : List Nat) : Decidable (sortedPermSpec sizes p) := by
  unfold sortedPermSpec
  infer_instance

lemma lbFinal_getD (P : LBParams) (recv_nodes sizes p : List Nat)
    (hlen : sizes.length = recv_nodes.length)
    (hperm : p.Perm (List.range sizes.length)) :
    ∀ i, i < recv_nodes.length →
      (lbFinal P recv_nodes sizes p).getD i (0, 0) =
        (recv_nodes.getD (p.getD i 0) 0,
         (fanoutSeq P recv_nodes.length
           (p.map (fun idx => sizes.getD idx 0))).getD i 0) := by
  intro i hi
  have hplen : p.length = recv_nodes.length := by
    have := hperm.length_eq
    simp at this
    omega
  have hnd : p.Nodup := hperm.nodup_iff.mpr (List.nodup_range _)
  have hmemlt : ∀ x ∈ p, x < recv_nodes.length := by
    intro x hx
    have := hperm.mem_iff.mp hx
    rw [← hlen]
    simpa using this
  have hp1 : ∀ k, k < recv_nodes.length → p.getD k 0 < recv_nodes.length := by
    intro k hk
    have hk' : k < p.length := by omega
    rw [List.getD_eq_getElem _ _ hk']
    exact hmemlt _ (List.getElem_mem hk')
  have hp2 : ∀ a b, a < recv_nodes.length → b < recv_nodes.length →
      p.getD a 0 = p.getD b 0 → a = b := by
    intro a b ha hb hab
    rw [List.getD_eq_getElem p 0 (show a < p.length by omega)] at hab
    rw [List.getD_eq_getElem p 0 (show b < p.length by omega)] at hab
    exact hnd.getElem_inj_iff.mp hab
  unfold lbFinal
  rw [List.getD_eq_getElem _ _ (by simpa using hi), List.getElem_map,
    List.getElem_range]
  rw [cycleReorder_eq _ _ _ hp1 hp2 i, if_pos hi]
  have hvslen : (fanoutSeq P recv_nodes.length
      (p.map (fun idx => sizes.getD idx 0))).length = p.length := by
    rw [fanoutSeq_length]
    simp
  exact congrArg (Prod.mk _)
    (scatter_read p _ (List.replicate recv_nodes.length 1) (by rw [hvslen]) hnd
      (by
        intro x hx
        rw [List.length_replicate]
        exact hmemlt x hx) i (by omega))

lemma hostFanout_pos (P : LBParams) (ctr x : Nat) (hx : x ≤ P.eager_cutoff)
    (hshort : 0 < P.short_cutoff) (hppn : 0 < P.PPN) :
    1 ≤ hostFanout P ctr x := by
  unfold hostFanout
  rw [if_neg (by omega)]
  by_cases h : P.short_cutoff < x ∧ ctr < P.PPN
  · rw [if_pos h]
    have h1 : 1 ≤ x / P.short_cutoff :=
      (Nat.one_le_div_iff hshort).mpr (by omega)
    split_ifs <;> omega
  · rw [if_neg h]

lemma hostFanout_mono (P : LBParams) (ctr x s : Nat) (hxs : x ≤ s)
    (hs : s ≤ P.eager_cutoff) (hshort : 0 < P.short_cutoff)
    (hppn : 0 < P.PPN) :
    hostFanout P ctr x ≤ hostFanout P ctr s := by
  unfold hostFanout
  rw [if_neg (show ¬ P.eager_cutoff < x by omega),
    if_neg (show ¬ P.eager_cutoff < s by omega)]
  by_cases hss : P.short_cutoff < s ∧ ctr < P.PPN
  · rw [if_pos hss]
    by_cases hxx : P.short_cutoff < x ∧ ctr < P.PPN
    · rw [if_pos hxx]
      have hdiv : x / P.short_cutoff ≤ s / P.short_cutoff :=
        Nat.div_le_div_right hxs
      split_ifs <;> omega
    · rw [if_neg hxx]
      have h1 : 1 ≤ s / P.short_cutoff :=
        (Nat.one_le_div_iff hshort).mpr (by omega)
      split_ifs <;> omega
  · rw [if_neg hss,
      if_neg (fun hxx => hss ⟨Nat.lt_of_lt_of_le hxx.1 hxs, hxx.2⟩)]

lemma fanoutSeq_sorted_of_le_eager (P : LBParams) (ctr : Nat)
    (hppn : 0 < P.PPN) (hshort : 0 < P.short_cutoff)
    (ss : List Nat) (hs : List.Sorted (· ≥ ·) ss)
    (hle : ∀ x ∈ ss, x ≤ P.eager_cutoff) :
    List.Sorted (· ≥ ·) (fanoutSeq P ctr ss) := by
  show List.Pairwise _ _
  rw [List.pairwise_iff_getElem]
  intro i j hi hj hij
  have hlen : (fanoutSeq P ctr ss).length = ss.length := fanoutSeq_length P ctr ss
  have hi' : i < ss.length := by omega
  have hj' : j < ss.length := by omega
  have hgi := fanoutSeq_getD P ctr ss i hi'
  have hgj := fanoutSeq_getD P ctr ss j hj'
  rw [List.getD_eq_getElem _ _ hi] at hgi
  rw [List.getD_eq_getElem _ _ hj] at hgj
  rw [hgi, hgj]
  have hssij : ss.getD j 0 ≤ ss.getD i 0 := by
    rw [List.getD_eq_getElem _ _ hi', List.getD_eq_getElem _ _ hj']
    exact List.pairwise_iff_getElem.mp hs i j hi' hj' hij
  have hlei : ss.getD i 0 ≤ P.eager_cutoff := by
    rw [List.getD_eq_getElem _ _ hi']
    exact hle _ (List.getElem_mem hi')
  have hlej : ss.getD j 0 ≤ P.eager_cutoff := by
    rw [List.getD_eq_getElem _ _ hj']
    exact hle _ (List.getElem_mem hj')
  by_cases hcj : ∀ a, a < j → keepsGoing P ctr (ss.getD a 0)
  · have hci : ∀ a, a < i → keepsGoing P ctr (ss.getD a 0) :=
      fun a ha => hcj a (by omega)
    rw [if_pos hcj, if_pos hci]
    exact hostFanout_mono P ctr _ _ hssij hlei hshort hppn
  · rw [if_neg hcj]
    by_cases hci : ∀ a, a < i → keepsGoing P ctr (ss.getD a 0)
    · rw [if_pos hci]
      exact hostFanout_pos P ctr _ hlei hshort hppn
    · rw [if_neg hci]

/-- C2 counterexample: with eager_cutoff = 100, short_cutoff = 10,
PPN = 16, ideal_n_comm = 4, volumes 95 and 101 (so the sort visits host 1
first), the host just above the eager threshold gets fan-out
101 / 100 = 1 while the lower-volume host below it gets 95 / 10 = 9: the
final volume-descending order carries fan-outs [1, 9], which is not
non-increasing. -/
theorem C2_claim_counterexample :
    sortedPermSpec [95, 101] [1, 0] ∧
    (lbFinal lbDemo [0, 1] [95, 101] [1, 0]).map Prod.snd = [1, 9] ∧
    ¬ List.Sorted (· ≥ ·)
        ((lbFinal lbDemo [0, 1] [95, 101] [1, 0]).map Prod.snd) := by
  refine ⟨by decide, by decide, by decide⟩

/-- C2 (amended): provided no host's aggregate volume exceeds the eager
threshold, the fan-out counts along the final volume-descending host
order are non-increasing.  (Above the eager threshold the cap to
ideal_n_comm, or the switch from the eager to the short formula across
the threshold, can assign a larger fan-out to a lower-volume host.) -/
theorem C2_fanout_monotone_below_eager (P : LBParams)
    (recv_nodes sizes p : List Nat)
    (hlen : sizes.length = recv_nodes.length)
    (hppn : 0 < P.PPN) (hshort : 0 < P.short_cutoff)
    (hsps : sortedPermSpec sizes p)
    (heager : ∀ x ∈ sizes, x ≤ P.eager_cutoff) :
    List.Sorted (· ≥ ·) ((lbFinal P recv_nodes sizes p).map Prod.snd) := by
  obtain ⟨hperm, hsort⟩ := hsps
  have hplen : p.length = recv_nodes.length := by
    have := hperm.length_eq
    simp at this
    omega
  have hmap : (lbFinal P recv_nodes sizes p).map Prod.snd =
      fanoutSeq P recv_nodes.length (p.map (fun idx => sizes.getD idx 0)) := by
    apply List.ext_getElem
    · simp [lbFinal, fanoutSeq_length, hplen]
    · intro t h1 h2
      have hlbl : (lbFinal P recv_nodes sizes p).length = recv_nodes.length := by
        simp [lbFinal]
      have ht : t < recv_nodes.length := by
        simp only [List.length_map] at h1
        omega
      rw [List.getElem_map]
      rw [← List.getD_eq_getElem (lbFinal P recv_nodes sizes p) (0, 0)
        (by omega)]
      rw [lbFinal_getD P recv_nodes sizes p hlen hperm t ht]
      rw [← List.getD_eq_getElem _ 0 h2]
  rw [hmap]
  apply fanoutSeq_sorted_of_le_eager P _ hppn hshort
  · exact (List.pairwise_map).mpr hsort
  · intro x hx
    obtain ⟨idx, hidx, rfl⟩ := List.mem_map.mp hx
    have hlt : idx < sizes.length := by
      have := hperm.mem_iff.mp hidx
      simpa using this
    rw [List.getD_eq_getElem _ _ hlt]
    exact heager _ (List.getElem_mem hlt)

theorem C2_fanout_monotone_below_eager_witness :
    sortedPermSpec [20, 30] [1, 0] ∧
    List.Sorted (· ≥ ·) ((lbFinal lbDemo [0, 1] [20, 30] [1, 0]).map Prod.snd) :=
  ⟨by decide,
    C2_fanout_monotone_below_eager lbDemo [0, 1] [20, 30] [1, 0]
      (by decide) (by decide) (by decide) (by decide) (by decide)⟩

/-- C9 counterexample: two hosts with equal aggregate volume 5.  The
permutation [1, 0] satisfies everything std::sort guarantees for the
comparator sizes[lhs] > sizes[rhs] (it is a permutation of the index
range along which the sizes are non-increasing), yet it reverses the
bitmap-decode order of the equal-volume hosts: the final host order comes
out [7, 3] instead of the stable [3, 7], and the stable tie-break
property (equal volumes keep ascending original positions) fails. -/
theorem C9_stability_counterexample :
    sortedPermSpec [5, 5] [1, 0] ∧
    (lbFinal lbDemo [3, 7] [5, 5] [1, 0]).map Prod.fst = [7, 3] ∧
    ¬ (∀ b, b < ([1, 0] : List Nat).length → ∀ a, a < b →
        ([5, 5] : List Nat).getD (([1, 0] : List Nat).getD a 0) 0 =
          ([5, 5] : List Nat).getD (([1, 0] : List Nat).getD b 0) 0 →
        ([1, 0] : List Nat).getD a 0 < ([1, 0] : List Nat).getD b 0) := by
  refine ⟨by decide, by decide, by decide⟩

/-- C9 (amended): the host ordering produced by the load balancer is
sorted by non-increasing aggregate traffic volume — the host at final
position i is the host at original (bitmap-decode) position p[i] and the
volumes along p are non-increasing — for every permutation p admitted by
the std::sort contract; the relative order of equal-volume hosts is
unspecified (std::sort is not stable). -/
theorem C9_descending_order (P : LBParams) (recv_nodes sizes p : List Nat)
    (hlen : sizes.length = recv_nodes.length)
    (hsps : sortedPermSpec sizes p) :
    (lbFinal P recv_nodes sizes p).map Prod.fst =
      p.map (fun idx => recv_nodes.getD idx 0) ∧
    List.Sorted (· ≥ ·) (p.map (fun idx => sizes.getD idx 0)) := by
  obtain ⟨hperm, hsort⟩ := hsps
  have hplen : p.length = recv_nodes.length := by
    have := hperm.length_eq
    simp at this
    omega
  constructor
  · apply List.ext_getElem
    · simp [lbFinal, hplen]
    · intro t h1 h2
      have hlbl : (lbFinal P recv_nodes sizes p).length = recv_nodes.length := by
        simp [lbFinal]
      have ht : t < recv_nodes.length := by
        simp only [List.length_map] at h1
        omega
      rw [List.getElem_map, List.getElem_map]
      rw [← List.getD_eq_getElem (lbFinal P recv_nodes sizes p) (0, 0)
        (by omega)]
      rw [lbFinal_getD P recv_nodes sizes p hlen hperm t ht]
      rw [← List.getD_eq_getElem p 0 (by omega)]
  · exact (List.pairwise_map).mpr hsort

theorem C9_descending_order_witness :
    sortedPermSpec [5, 8] [1, 0] ∧
    ((lbFinal lbDemo [4, 9] [5, 8] [1, 0]).map Prod.fst =
      ([1, 0] : List Nat).map (fun idx => ([4, 9] : List Nat).getD idx 0) ∧
    List.Sorted (· ≥ ·)
      (([1, 0] : List Nat).map (fun idx => ([5, 8] : List Nat).getD idx 0))) :=
  ⟨by decide,
    C9_descending_order lbDemo [4, 9] [5, 8] [1, 0] (by decide) (by decide)⟩

end Raptor
